import Mathlib

/-!
# Token service of the org-chart API

The repository holds the unit tests of the `Jwt` class (`generated_tests/TestJwt.cc`)
but not the class itself (`plugins/Jwt.h`).  The token service is therefore modelled
from the specification: the definitions of the model carry a doc comment that
starts with "Modelled from the spec:".  The hash function of the signature is a
parameter of the model, so the theorems hold for every hash function.

A `std::string` is a sequence of bytes, so strings are lists of `Fin 256`.
-/

/-- One byte of a `std::string`. -/
abbrev Byte := Fin 256

/-- A `std::string`: a finite sequence of bytes. -/
abbrev Bytes := List Byte

deriving instance DecidableEq for Except

/-- The bytes of a string literal (code points are reduced modulo 256; the literals
used below are plain ASCII). -/
def ascii (s : String) : Bytes := s.toList.map fun c => Fin.ofNat c.toNat

namespace TokenService

/-! ## base64url -/

/-- Modelled from the spec: the base64url alphabet of the token wire format (§6),
`A`–`Z`, `a`–`z`, `0`–`9`, `-`, `_`; the codec belongs to the signing library, which is
not in the repository. -/
def b64Char (n : Nat) : Byte :=
  if n < 26 then Fin.ofNat (65 + n)
  else if n < 52 then Fin.ofNat (71 + n)
  else if n < 62 then Fin.ofNat (n - 4)
  else if n = 62 then 45
  else 95

/-- Modelled from the spec: the value of a base64url character (§6), `none` for a
byte outside the alphabet; part of the codec of the signing library, which is not in
the repository. -/
def b64Val (c : Byte) : Option Nat :=
  if 65 ≤ c.val ∧ c.val ≤ 90 then some (c.val - 65)
  else if 97 ≤ c.val ∧ c.val ≤ 122 then some (c.val - 71)
  else if 48 ≤ c.val ∧ c.val ≤ 57 then some (c.val + 4)
  else if c.val = 45 then some 62
  else if c.val = 95 then some 63
  else none

/-- Modelled from the spec: unpadded base64url encoding of a byte string into one
segment of the token (§6); the encoder of the signing library is not in the
repository. -/
def b64encode : Bytes → Bytes
  | [] => []
  | [a] => [b64Char (a.val / 4), b64Char (a.val % 4 * 16)]
  | [a, b] =>
      [b64Char (a.val / 4), b64Char (a.val % 4 * 16 + b.val / 16), b64Char (b.val % 16 * 4)]
  | a :: b :: c :: rest =>
      b64Char (a.val / 4) :: b64Char (a.val % 4 * 16 + b.val / 16) ::
        b64Char (b.val % 16 * 4 + c.val / 64) :: b64Char (c.val % 64) :: b64encode rest

/-- Modelled from the spec: decoding of one base64url segment (§6); the decoder of the
signing library is not in the repository.  A segment is accepted only when it is the encoding of a byte string: every character is in the
alphabet, the length is not 1 modulo 4, and the unused low bits of a final partial
group are zero.  With this reading a changed signature character can never decode to
the same signature, as §8 requires. -/
def b64decode : Bytes → Option Bytes
  | [] => some []
  | [_] => none
  | [c0, c1] =>
      match b64Val c0, b64Val c1 with
      | some v0, some v1 =>
          if v1 % 16 = 0 then some [Fin.ofNat (v0 * 4 + v1 / 16)] else none
      | _, _ => none
  | [c0, c1, c2] =>
      match b64Val c0, b64Val c1, b64Val c2 with
      | some v0, some v1, some v2 =>
          if v2 % 4 = 0 then
            some [Fin.ofNat (v0 * 4 + v1 / 16), Fin.ofNat (v1 % 16 * 16 + v2 / 4)]
          else none
      | _, _, _ => none
  | c0 :: c1 :: c2 :: c3 :: rest =>
      match b64Val c0, b64Val c1, b64Val c2, b64Val c3, b64decode rest with
      | some v0, some v1, some v2, some v3, some tail =>
          some (Fin.ofNat (v0 * 4 + v1 / 16) :: Fin.ofNat (v1 % 16 * 16 + v2 / 4) ::
            Fin.ofNat (v2 % 4 * 64 + v3) :: tail)
      | _, _, _, _, _ => none

/-! ## Payload objects and their JSON text -/

/-- Modelled from the spec: the value of a payload field (§6): `iss` and `typ` are
strings, the caller-named claim and `exp` are integers.  The claim type of the signing
library is not in the repository. -/
inductive Value where
  | str (s : Bytes)
  | int (i : Int)
  deriving DecidableEq, Repr

/-- Modelled from the spec: a header or payload (§3, §6), an object given by its
fields in order; the token builder of the signing library is not in the repository. -/
abbrev Obj := List (Bytes × Value)

/-- Modelled from the spec: setting the field `k` of an object.  Field names of a
claims object are unique ("standard signed-claims-token conventions", §6), so a field
that is already present is replaced. -/
def setField (k : Bytes) (v : Value) : Obj → Obj
  | [] => [(k, v)]
  | f :: fs => if f.1 = k then (k, v) :: fs else f :: setField k v fs

/-- Modelled from the spec: "claim lookup by name" (§4.1) on an object, `none` when no
field has the name. -/
def getField (k : Bytes) : Obj → Option Value
  | [] => none
  | f :: fs => if f.1 = k then some f.2 else getField k fs

/-- Modelled from the spec: the body of a JSON string; a double quote (34) and a
backslash (92) are preceded by a backslash.  The JSON library is not in the
repository. -/
def escape : Bytes → Bytes
  | [] => []
  | c :: cs => if c = 34 ∨ c = 92 then 92 :: c :: escape cs else c :: escape cs

/-- Modelled from the spec: a JSON string, between double quotes (34); part of the
JSON text of a payload, whose writer is not in the repository. -/
def quote (s : Bytes) : Bytes := 34 :: (escape s ++ [34])

/-- Modelled from the spec: the decimal digit values of `n`, least significant first,
for the text of an integer field; `fuel` bounds the number of digits. -/
def digitsLE : Nat → Nat → List Nat
  | 0, _ => []
  | fuel + 1, n => if n < 10 then [n] else n % 10 :: digitsLE fuel (n / 10)

/-- Modelled from the spec: the decimal text of a natural number, most significant
digit first (48 is the digit zero). -/
def natText (n : Nat) : Bytes :=
  (digitsLE (n + 1) n).reverse.map fun d => Fin.ofNat (48 + d)

/-- Modelled from the spec: the decimal text of an integer (§6: the claim and `exp`
are integers), with a leading `-` (45) when negative. -/
def intText : Int → Bytes
  | Int.ofNat n => natText n
  | Int.negSucc n => 45 :: natText (n + 1)

/-- Modelled from the spec: the JSON text of a field value. -/
def valueText : Value → Bytes
  | .str s => quote s
  | .int i => intText i

/-- Modelled from the spec: the JSON text of the fields of an object, each field as
`"name":value` (58 is the colon), separated by commas (44). -/
def fieldsText : Obj → Bytes
  | [] => []
  | [f] => quote f.1 ++ 58 :: valueText f.2
  | f :: g :: fs => quote f.1 ++ 58 :: valueText f.2 ++ 44 :: fieldsText (g :: fs)

/-- Modelled from the spec: the JSON text of an object, between braces (123, 125). -/
def objText (o : Obj) : Bytes := 123 :: (fieldsText o ++ [125])

/-- Modelled from the spec: the states of the reader of JSON object text; `acc` holds
the fields read so far, `k` the name of the field being read. -/
inductive PState where
  | start
  | firstKey
  | key (acc : Obj)
  | inKey (acc : Obj) (k : Bytes)
  | inKeyEsc (acc : Obj) (k : Bytes)
  | colon (acc : Obj) (k : Bytes)
  | value (acc : Obj) (k : Bytes)
  | inStr (acc : Obj) (k : Bytes) (s : Bytes)
  | inStrEsc (acc : Obj) (k : Bytes) (s : Bytes)
  | minus (acc : Obj) (k : Bytes)
  | inInt (acc : Obj) (k : Bytes) (neg : Bool) (n : Nat)
  | afterValue (acc : Obj)
  | done (acc : Obj)
  deriving DecidableEq

/-- Modelled from the spec: the integer field value read from a sign and a
magnitude. -/
def signed (neg : Bool) (n : Nat) : Int := if neg then -(n : Int) else (n : Int)

/-- Modelled from the spec: one step of the reader of JSON object text on the byte
`c`; `none` when `c` cannot follow. -/
def step : PState → Byte → Option PState
  | .start, c => if c = 123 then some .firstKey else none
  | .firstKey, c =>
      if c = 34 then some (.inKey [] []) else if c = 125 then some (.done []) else none
  | .key acc, c => if c = 34 then some (.inKey acc []) else none
  | .inKey acc k, c =>
      if c = 34 then some (.colon acc k)
      else if c = 92 then some (.inKeyEsc acc k)
      else some (.inKey acc (k ++ [c]))
  | .inKeyEsc acc k, c => if c = 34 ∨ c = 92 then some (.inKey acc (k ++ [c])) else none
  | .colon acc k, c => if c = 58 then some (.value acc k) else none
  | .value acc k, c =>
      if c = 34 then some (.inStr acc k [])
      else if c = 45 then some (.minus acc k)
      else if 48 ≤ c.val ∧ c.val ≤ 57 then some (.inInt acc k false (c.val - 48))
      else none
  | .inStr acc k s, c =>
      if c = 34 then some (.afterValue (acc ++ [(k, .str s)]))
      else if c = 92 then some (.inStrEsc acc k s)
      else some (.inStr acc k (s ++ [c]))
  | .inStrEsc acc k s, c => if c = 34 ∨ c = 92 then some (.inStr acc k (s ++ [c])) else none
  | .minus acc k, c =>
      if 48 ≤ c.val ∧ c.val ≤ 57 then some (.inInt acc k true (c.val - 48)) else none
  | .inInt acc k neg n, c =>
      if 48 ≤ c.val ∧ c.val ≤ 57 then some (.inInt acc k neg (n * 10 + (c.val - 48)))
      else if c = 44 then some (.key (acc ++ [(k, .int (signed neg n))]))
      else if c = 125 then some (.done (acc ++ [(k, .int (signed neg n))]))
      else none
  | .afterValue acc, c =>
      if c = 44 then some (.key acc) else if c = 125 then some (.done acc) else none
  | .done _, _ => none

/-- Modelled from the spec: the reader run over a byte string. -/
def run : PState → Bytes → Option PState
  | st, [] => some st
  | st, c :: cs =>
      match step st c with
      | some st1 => run st1 cs
      | none => none

/-- Modelled from the spec: reading the JSON text of an object; `none` when the
text is not an object of string and integer fields. -/
def parseObj (bs : Bytes) : Option Obj :=
  match run .start bs with
  | some (.done acc) => some acc
  | _ => none

/-! ## Signing -/

/-- Modelled from the spec: the hash function of the "symmetric HMAC-family
algorithm" (§4.1) with its block size in bytes.  The signing library is not in the
repository, so the hash is a parameter of the model. -/
structure HashFn where
  hash : Bytes → Bytes
  blockSize : Nat

/-- Modelled from the spec: the key block of HMAC (§4.1, "HMAC-family"): a secret
longer than a block is hashed first, and the result is filled with zero bytes up to
the block size. -/
def hmacKey (H : HashFn) (secret : Bytes) : Bytes :=
  let k0 := if H.blockSize < secret.length then H.hash secret else secret
  k0 ++ List.replicate (H.blockSize - k0.length) 0

/-- Modelled from the spec: the HMAC tag of `msg` under `secret` (§4.1):
`hash ((key xor opad) ++ hash ((key xor ipad) ++ msg))` with `opad` the byte 0x5c and
`ipad` the byte 0x36. -/
def hmac (H : HashFn) (secret msg : Bytes) : Bytes :=
  let k := hmacKey H secret
  H.hash (k.map (fun b => b ^^^ 92) ++ H.hash (k.map (fun b => b ^^^ 54) ++ msg))

/-- A concrete hash function, 32-bit FNV-1a, given to the model as input where it is
evaluated on the tokens of the tests. -/
def fnv1a (bs : Bytes) : Bytes :=
  let h := bs.foldl (fun h b => (h ^^^ b.val) * 16777619 % 4294967296) 2166136261
  [Fin.ofNat (h / 16777216), Fin.ofNat (h / 65536), Fin.ofNat (h / 256), Fin.ofNat h]

/-- The hash parameter of the evaluations: FNV-1a with a block of 64 bytes. -/
def sampleHash : HashFn := ⟨fnv1a, 64⟩

/-- Modelled from the spec: the TokenService configuration (§3, §6): secret, session
lifetime in seconds, issuer.  The class `Jwt` (plugins/Jwt.h) is not in the
repository. -/
structure Config where
  secret : Bytes
  sessionLifetime : Int
  issuer : Bytes
  deriving DecidableEq

/-- Modelled from the spec: the error kinds of §7. -/
inductive TokenError where
  | InvalidTokenError
  | MissingClaimError
  deriving DecidableEq, Repr

/-- Modelled from the spec: the accessor returned by `verify` (§4.1): the decoded
header and payload. -/
structure Claims where
  header : Obj
  payload : Obj
  deriving DecidableEq

/-- Modelled from the spec: the separator of the three segments of a token, `.`
(§6). -/
def dot : Byte := 46

/-- Modelled from the spec: the "fixed type marker" `typ` of the payload (§6); the
tests build their tokens with the type "JWT". -/
def typeMarker : Bytes := ascii "JWT"

/-- Modelled from the spec: the header of an issued token (§3); it names the signing
algorithm, which the tests take to be `hs256`. -/
def header : Obj := [(ascii "alg", .str (ascii "HS256"))]

/-- Modelled from the spec: the payload built by `issue` (§4.1): "issuer = configured
issuer, type = fixed constant, claim = {claimName: claimValue}, expiration = now +
configured session lifetime", under the field names `iss`, `typ`, the caller's name and
`exp` of §6, set in this order. -/
def payloadOf (cfg : Config) (now : Int) (claimName : Bytes) (claimValue : Int) : Obj :=
  setField (ascii "exp") (.int (now + cfg.sessionLifetime))
    (setField claimName (.int claimValue)
      (setField (ascii "typ") (.str typeMarker)
        (setField (ascii "iss") (.str cfg.issuer) [])))

/-- Modelled from the spec: the serialized signed token (§3, §6): base64url header,
base64url payload and base64url signature separated by `.`, the signature being the
HMAC tag of header segment, `.` and payload segment under the secret. -/
def sign (H : HashFn) (secret : Bytes) (hdr payload : Obj) : Bytes :=
  let h := b64encode (objText hdr)
  let p := b64encode (objText payload)
  h ++ dot :: (p ++ dot :: b64encode (hmac H secret (h ++ dot :: p)))

/-- Modelled from the spec: what the signature is computed over (§3, "header+payload"):
the header segment, `.` and the payload segment. -/
def signingInput (hdr payload : Obj) : Bytes :=
  b64encode (objText hdr) ++ dot :: b64encode (objText payload)

/-- Modelled from the spec: `issue(claimName, claimValue)` (§4.1) at the clock reading
`now`.  It is `Jwt::encode`, called by the tests; its code (plugins/Jwt.cc) is not in
the repository. -/
def issue (H : HashFn) (cfg : Config) (now : Int) (claimName : Bytes) (claimValue : Int) :
    Bytes :=
  sign H cfg.secret header (payloadOf cfg now claimName claimValue)

/-- Modelled from the spec: the segments of a token, cut at every `.` (§6). -/
def splitDot : Bytes → List Bytes
  | [] => [[]]
  | c :: cs =>
      if c = dot then [] :: splitDot cs
      else
        match splitDot cs with
        | [] => [[c]]
        | seg :: segs => (c :: seg) :: segs

/-- Modelled from the spec: `verify(token)` (§4.1) at the clock reading `now`.  It is
`Jwt::decode`, called by the tests; its code (plugins/Jwt.cc) is not in the repository.
It fails with `InvalidTokenError` when the token is not
three dot-separated base64url segments holding a header object, a payload object and a
signature, when the signature is not the HMAC tag of the first two segments under the
configured secret, when the payload has no integer `exp`, or when `exp ≤ now`.  It does
not look at any other claim. -/
def verify (H : HashFn) (cfg : Config) (now : Int) (token : Bytes) :
    Except TokenError Claims :=
  match splitDot token with
  | [h, p, s] =>
      match b64decode h, b64decode p, b64decode s with
      | some hb, some pb, some sig =>
          match parseObj hb, parseObj pb with
          | some hdr, some payload =>
              if sig = hmac H cfg.secret (h ++ dot :: p) then
                match getField (ascii "exp") payload with
                | some (.int e) =>
                    if now < e then .ok ⟨hdr, payload⟩ else .error .InvalidTokenError
                | _ => .error .InvalidTokenError
              else .error .InvalidTokenError
          | _, _ => .error .InvalidTokenError
      | _, _, _ => .error .InvalidTokenError
  | _ => .error .InvalidTokenError

/-- Modelled from the spec: the last step of `verify` (§4.1), the expiry check on a
decoded header and payload. -/
def expiryCheck (now : Int) (hdr payload : Obj) : Except TokenError Claims :=
  match getField (ascii "exp") payload with
  | some (.int e) => if now < e then .ok ⟨hdr, payload⟩ else .error .InvalidTokenError
  | _ => .error .InvalidTokenError

/-- Modelled from the spec: claim lookup by name on the accessor (§4.1); a name
absent from the payload fails with `MissingClaimError`.  It is `get_payload_claim` on
the value returned by `Jwt::decode`, not in the repository. -/
def Claims.lookup (c : Claims) (name : Bytes) : Except TokenError Value :=
  match getField name c.payload with
  | some v => .ok v
  | none => .error .MissingClaimError

/-- Modelled from the spec: a structurally well-formed token (§4.1, §6): "three
dot-separated base64 segments", the first holding a header object, the second a payload
object, the third a signature. -/
def WellFormed (t : Bytes) : Prop :=
  ∃ h p s hb pb sig hdr payload, t = h ++ dot :: (p ++ dot :: s) ∧
    b64decode h = some hb ∧ parseObj hb = some hdr ∧
    b64decode p = some pb ∧ parseObj pb = some payload ∧
    b64decode s = some sig

/-- Modelled from the spec: the payload object carried by a token (§3), the decoded
second segment. -/
def payloadOfToken (t : Bytes) : Option Obj :=
  match splitDot t with
  | [_, p, _] => (b64decode p).bind parseObj
  | _ => none

/-- The service built by the fixture `JwtTest::SetUp` of TestJwt.cc: secret
"test_secret", session time 3600 s, issuer "test_issuer". -/
def testConfig : Config := ⟨ascii "test_secret", 3600, ascii "test_issuer"⟩

end TokenService

/-!
# String utilities of the sample project

The functions of `sample_project/src/string_utils.cpp`, translated from the source.
The character classification of the C library is taken in the "C" locale, in which the
program starts.
-/

namespace StringUtils

/-! ## trim -/

/-- The argument `" \t\n\r\f\v"` of `find_first_not_of` and `find_last_not_of` in `trim`:
space, tab, line feed, carriage return, form feed, vertical tab. -/
def whitespace : Bytes := [32, 9, 10, 13, 12, 11]

/-- The value `std::string::npos`, the largest `size_t`. -/
def npos : Nat := 2 ^ 64 - 1

/-- The method `std::string::find_first_not_of(chars)`: the index of the first character
of `str` that is not in `chars`; `none` stands for `npos`. -/
def find_first_not_of (str chars : Bytes) : Option Nat :=
  match str with
  | [] => none
  | c :: cs =>
      if c ∈ chars then (find_first_not_of cs chars).map (· + 1) else some 0

/-- The method `std::string::find_last_not_of(chars)`: the index of the last character of
`str` that is not in `chars`; `none` stands for `npos`. -/
def find_last_not_of (str chars : Bytes) : Option Nat :=
  match str with
  | [] => none
  | c :: cs =>
      match find_last_not_of cs chars with
      | some i => some (i + 1)
      | none => if c ∈ chars then none else some 0

/-- The method `std::string::substr(pos, len)` for `pos` within the string: the `len`
characters from index `pos`, or fewer when the string ends before. -/
def substr (str : Bytes) (pos len : Nat) : Bytes := (str.drop pos).take len

/-- The function `StringUtils::trim` (string_utils.cpp, lines 19-25).  When `start` is
found, `end_` is found too and is not smaller (lemma `find_last_ge_first`), so the
subtraction `end - start + 1` does not wrap; the branch for `end == npos` keeps the
arithmetic of the source. -/
def trim (str : Bytes) : Bytes :=
  match find_first_not_of str whitespace with
  | none => []
  | some start =>
      match find_last_not_of str whitespace with
      | some end_ => substr str start (end_ - start + 1)
      | none => substr str start ((npos - start + 1) % 2 ^ 64)

/-- The words of the claim on the result of `trim`: it "is either empty or begins and
ends with a character outside that set". -/
def Trimmed (t : Bytes) : Prop :=
  t = [] ∨ ((∃ x, t.head? = some x ∧ x ∉ whitespace) ∧ ∃ y, t.getLast? = some y ∧ y ∉ whitespace)

/-! ## split and join -/

/-- The call `std::getline(ss, token, delimiter)` on a stream whose unread input is the
argument: `none` when the call fails (nothing is left to extract), else the token and
the input left.  Characters are extracted up to the end of input or up to the first
delimiter, which is extracted and not stored. -/
def getline (delimiter : Byte) : Bytes → Option (Bytes × Bytes)
  | [] => none
  | c :: cs =>
      if c = delimiter then some ([], cs)
      else
        match getline delimiter cs with
        | some (token, rest) => some (c :: token, rest)
        | none => some ([c], [])

/-- The loop `while (std::getline(ss, token, delimiter)) tokens.push_back(token)` of
`split`, run for at most `fuel` calls of `getline`; `none` when the fuel runs out. -/
def splitLoop (delimiter : Byte) : Nat → Bytes → List Bytes → Option (List Bytes)
  | 0, _, _ => none
  | fuel + 1, ss, tokens =>
      match getline delimiter ss with
      | none => some tokens
      | some (token, rest) => splitLoop delimiter fuel rest (tokens ++ [token])

/-- The function `StringUtils::split` (string_utils.cpp, lines 69-79).  Every successful
`getline` extracts at least one character, so `str.length + 1` calls are enough
(lemma `split_eq_fields`). -/
def split (str : Bytes) (delimiter : Byte) : Option (List Bytes) :=
  splitLoop delimiter (str.length + 1) str []

/-- The tokens of `split`, by recursion on the string; used to reason about the loop. -/
def fields (delimiter : Byte) : Bytes → List Bytes
  | [] => []
  | c :: cs =>
      if c = delimiter then [] :: fields delimiter cs
      else
        match fields delimiter cs with
        | [] => [[c]]
        | token :: tokens => (c :: token) :: tokens

/-- The function `StringUtils::join` (string_utils.cpp, lines 81-89): the first string,
then for every further string the delimiter and the string. -/
def join (strings : List Bytes) (delimiter : Bytes) : Bytes :=
  match strings with
  | [] => []
  | first :: others => others.foldl (fun result s => result ++ (delimiter ++ s)) first

/-! ## replace -/

/-- Whether `pat` is an initial segment of `s`; the comparison made by
`std::string::find` at one position. -/
def startsWith : Bytes → Bytes → Bool
  | _, [] => true
  | [], _ :: _ => false
  | c :: s, p :: pat => c == p && startsWith s pat

/-- The search of `std::string::find` through the part `s` of the string that begins at
index `p`: the first index at or after `p` where `pat` occurs. -/
def findAt (pat : Bytes) : Bytes → Nat → Option Nat
  | [], p => if pat = [] then some p else none
  | c :: cs, p => if startsWith (c :: cs) pat then some p else findAt pat cs (p + 1)

/-- The method `std::string::find(pat, pos)`: the index of the first occurrence of `pat`
in `s` at or after `pos`; `none` stands for `npos`. -/
def find (s pat : Bytes) (pos : Nat) : Option Nat :=
  if s.length < pos then none else findAt pat (s.drop pos) pos

/-- The method `std::string::replace(pos, len, str)` for `pos` within the string: the
`len` characters from index `pos` give way to `str`. -/
def replaceAt (s : Bytes) (pos len : Nat) (str : Bytes) : Bytes :=
  s.take pos ++ str ++ s.drop (pos + len)

/-- The loop of `StringUtils::replace` from the state `(result, pos)`, run for at most
`fuel` calls of `find`; `none` when the fuel runs out. -/
def replaceLoop (fromStr toStr : Bytes) : Nat → Bytes → Nat → Option Bytes
  | 0, _, _ => none
  | fuel + 1, result, pos =>
      match find result fromStr pos with
      | none => some result
      | some p =>
          replaceLoop fromStr toStr fuel (replaceAt result p fromStr.length toStr)
            (p + toStr.length)

/-- The function `StringUtils::replace` (string_utils.cpp, lines 91-99), with the fuel
`str.length + 1`, which is enough when `fromStr` is not empty (lemma
`replaceLoop_eq_scan`). -/
def replace (str fromStr toStr : Bytes) : Option Bytes :=
  replaceLoop fromStr toStr (str.length + 1) str 0

/-- The single left-to-right scan of the original string, in the words of the claim:
where `fromStr` begins the rest of the string, `toStr` is written and the scan goes on
after `fromStr`; elsewhere one character is copied.  The `fuel` bounds the number of
steps. -/
def replaceScan (fromStr toStr : Bytes) : Nat → Bytes → Bytes
  | 0, s => s
  | _ + 1, [] => []
  | fuel + 1, c :: s =>
      if startsWith (c :: s) fromStr then
        toStr ++ replaceScan fromStr toStr fuel ((c :: s).drop fromStr.length)
      else c :: replaceScan fromStr toStr fuel s

/-- The scan `R` of the claim on a whole string: one step per character is enough. -/
def scanSpec (fromStr toStr s : Bytes) : Bytes := replaceScan fromStr toStr s.length s

/-! ## isValidEmail -/

/-- The class `\w` of `std::regex` (ECMAScript grammar, "C" locale): letters, digits and
the underscore. -/
def wordChar (c : Byte) : Bool :=
  (65 ≤ c.val && c.val ≤ 90) || (97 ≤ c.val && c.val ≤ 122) || (48 ≤ c.val && c.val ≤ 57) ||
    c.val == 95

/-- The union of the one-character expressions of a list of characters. -/
def anyOf : List Byte → RegularExpression Byte
  | [] => 0
  | c :: cs => RegularExpression.char c + anyOf cs

/-- The atom `\w` as a regular expression. -/
def word : RegularExpression Byte := anyOf ((List.finRange 256).filter fun c => wordChar c)

/-- The quantifier `+` of the pattern: one or more. -/
def oneOrMore (P : RegularExpression Byte) : RegularExpression Byte := P * P.star

/-- The quantifier `?` of the pattern: at most one. -/
def optional (P : RegularExpression Byte) : RegularExpression Byte := 1 + P

/-- The group `(\.?\w+)` of the pattern; 46 is the dot. -/
def dotWordGroup : RegularExpression Byte :=
  optional (RegularExpression.char 46) * oneOrMore word

/-- The pattern `(\w+)(\.?\w+)*@(\w+)(\.?\w+)+` of `isValidEmail`; 64 is `@`. -/
def pattern : RegularExpression Byte :=
  oneOrMore word * dotWordGroup.star * RegularExpression.char 64 *
    (oneOrMore word * oneOrMore dotWordGroup)

/-- The function `StringUtils::isValidEmail` (string_utils.cpp, lines 64-67):
`std::regex_match` holds when the whole string is in the language of the pattern. -/
def isValidEmail (email : Bytes) : Bool := pattern.rmatch email

/-- The words of the claim on the local part and the domain: only word characters and
dots, not empty, no dot at either end, no two dots in a row. -/
def DotWord (s : Bytes) : Prop :=
  s ≠ [] ∧ (∀ c ∈ s, wordChar c = true ∨ c = 46) ∧ s.head? ≠ some 46 ∧
    s.getLast? ≠ some 46 ∧ ¬ ∃ a b, s = a ++ 46 :: 46 :: b

/-- A one-pass check of `DotWord`, used in the proofs; `afterWord` tells whether the
previous character was a word character. -/
def scanDotWord : Bool → Bytes → Bool
  | afterWord, [] => afterWord
  | afterWord, c :: cs =>
      if wordChar c then scanDotWord true cs
      else (c == 46 && afterWord && scanDotWord false cs)

/-! ## countWords -/

/-- The classification `std::isspace` of the "C" locale, by which `operator>>` of the
input stream tells whitespace: space (32) and the characters 9 to 13. -/
def isspace (c : Byte) : Bool := c.val == 32 || (9 ≤ c.val && c.val ≤ 13)

/-- The first phase of `iss >> word`: leading whitespace is skipped. -/
def skipSpaces : Bytes → Bytes
  | [] => []
  | c :: cs => if isspace c then skipSpaces cs else c :: cs

/-- The second phase of `iss >> word`: characters are extracted up to the next whitespace
character, which stays in the stream, or up to the end of input; the word and the input
left. -/
def readWord : Bytes → Bytes × Bytes
  | [] => ([], [])
  | c :: cs => if isspace c then ([], c :: cs) else ((c :: (readWord cs).1), (readWord cs).2)

/-- The extraction `iss >> word` on a stream whose unread input is the argument: `none`
when it fails (only whitespace is left, so no character is extracted), else the word and
the input left. -/
def extractWord (iss : Bytes) : Option (Bytes × Bytes) :=
  match skipSpaces iss with
  | [] => none
  | c :: cs => some (readWord (c :: cs))

/-- The value of an `int` (32 bits, two's complement) that holds the integer `n`: `n`
itself when `-2 ^ 31 ≤ n < 2 ^ 31`, else the integer of that range congruent to `n`
modulo `2 ^ 32`. -/
def wrapInt (n : Int) : Int := (n + 2 ^ 31) % 2 ^ 32 - 2 ^ 31

/-- The loop `while (iss >> word) count++` of `countWords`, run for at most `fuel`
extractions; `none` when the fuel runs out.  The counter is the `int count` of the
source: `count++` is taken in 32 bits, and past `INT_MAX`, where C++ leaves the result
undefined, it wraps around as two's-complement hardware does. -/
def countLoop : Nat → Bytes → Int → Option Int
  | 0, _, _ => none
  | fuel + 1, iss, count =>
      match extractWord iss with
      | none => some count
      | some (_, rest) => countLoop fuel rest (wrapInt (count + 1))

/-- The function `StringUtils::countWords` (string_utils.cpp, lines 41-51); the result is
the `int` of the source.  Every successful extraction takes at least one character, so
`str.length + 1` extractions are enough (lemma `countLoop_eq_wrap`). -/
def countWords (str : Bytes) : Option Int :=
  if trim str = [] then some 0 else countLoop (str.length + 1) str 0

/-- The number of characters of `s` that are not one of the six whitespace characters
and are first or follow a whitespace character; `afterSpace` tells whether the previous
character was whitespace. -/
def wordStarts : Bool → Bytes → Nat
  | _, [] => 0
  | afterSpace, c :: cs =>
      (if afterSpace && !decide (c ∈ whitespace) then 1 else 0) +
        wordStarts (decide (c ∈ whitespace)) cs

/-- The words of the claim: "the number of maximal runs of non-whitespace characters in
s", one run for each character that begins a run. -/
def maximalRuns (s : Bytes) : Nat := wordStarts true s

/-- The string `a a ... a` of `n + 1` words `a` (97) separated by single spaces (32); it
has `2 * n + 1` characters. -/
def manyWords : Nat → Bytes
  | 0 => [97]
  | n + 1 => 97 :: 32 :: manyWords n

/-! ## isPalindrome -/

/-- The function `::tolower` of the "C" locale: `A`-`Z` (65-90) go to `a`-`z`, every other
character is left as it is. -/
def tolower (c : Byte) : Byte := if 65 ≤ c.val ∧ c.val ≤ 90 then c + 32 else c

/-- The function `::toupper` of the "C" locale: `a`-`z` (97-122) go to `A`-`Z`. -/
def toupper (c : Byte) : Byte := if 97 ≤ c.val ∧ c.val ≤ 122 then c - 32 else c

/-- The function `std::isalnum` of the "C" locale: letters and digits. -/
def isalnum (c : Byte) : Bool :=
  (48 ≤ c.val && c.val ≤ 57) || (65 ≤ c.val && c.val ≤ 90) || (97 ≤ c.val && c.val ≤ 122)

/-- The function `StringUtils::toLowerCase` (string_utils.cpp, lines 7-11). -/
def toLowerCase (str : Bytes) : Bytes := str.map tolower

/-- The function `StringUtils::toUpperCase` (string_utils.cpp, lines 13-17). -/
def toUpperCase (str : Bytes) : Bytes := str.map toupper

/-- The function `StringUtils::reverse` (string_utils.cpp, lines 27-31). -/
def reverse (str : Bytes) : Bytes := str.reverse

/-- The idiom `s.erase(std::remove_if(s.begin(), s.end(), pred), s.end())`: the characters
for which `pred` holds are removed, the others keep their order. -/
def eraseIf (pred : Byte → Bool) (s : Bytes) : Bytes := s.filter fun c => !pred c

/-- The function `StringUtils::isPalindrome` (string_utils.cpp, lines 33-39). -/
def isPalindrome (str : Bytes) : Bool :=
  let cleaned := eraseIf (fun c => !isalnum c) (toLowerCase (trim str))
  cleaned == reverse cleaned

/-- The words of the claim: "the subsequence of letters and digits of s, with letters
lower-cased". -/
def alnumLower (s : Bytes) : Bytes := (s.filter isalnum).map tolower

end StringUtils

namespace TokenService

set_option maxRecDepth 100000

/-! ## Lemmas on base64url -/

theorem b64Val_b64Char (n : Nat) (h : n < 64) : b64Val (b64Char n) = some n := by
  interval_cases n <;> decide

theorem b64Char_of_b64Val_aux : ∀ c : Byte,
    (b64Val c).all (fun n => decide (b64Char n = c ∧ n < 64)) = true := by
  decide

theorem b64Char_of_b64Val (c : Byte) (n : Nat) (h : b64Val c = some n) :
    b64Char n = c ∧ n < 64 := by
  have := b64Char_of_b64Val_aux c
  rw [h] at this
  simpa using this

theorem byte_ofNat_eq (n : Nat) (a : Byte) (h : n = a.val) : (Fin.ofNat n : Byte) = a := by
  apply Fin.ext
  simp only [Fin.ofNat, h]
  omega

theorem b64decode_b64encode (bs : Bytes) : b64decode (b64encode bs) = some bs := by
  induction bs using b64encode.induct with
  | case1 => rfl
  | case2 a =>
    simp only [b64encode, b64decode]
    rw [b64Val_b64Char _ (by omega), b64Val_b64Char _ (by omega)]
    have h1 : a.val % 4 * 16 % 16 = 0 := by omega
    simp only [h1, if_true, Option.some.injEq, List.cons.injEq, and_true]
    exact byte_ofNat_eq _ _ (by omega)
  | case3 a b =>
    simp only [b64encode, b64decode]
    rw [b64Val_b64Char _ (by omega), b64Val_b64Char _ (by omega), b64Val_b64Char _ (by omega)]
    have h1 : b.val % 16 * 4 % 4 = 0 := by omega
    simp only [h1, if_true, Option.some.injEq, List.cons.injEq, and_true]
    exact ⟨byte_ofNat_eq _ _ (by omega), byte_ofNat_eq _ _ (by omega)⟩
  | case4 a b c rest ih =>
    simp only [b64encode, b64decode]
    rw [b64Val_b64Char _ (by omega), b64Val_b64Char _ (by omega), b64Val_b64Char _ (by omega),
      b64Val_b64Char _ (by omega), ih]
    simp only [Option.some.injEq, List.cons.injEq, and_true]
    exact ⟨byte_ofNat_eq _ _ (by omega), byte_ofNat_eq _ _ (by omega),
      byte_ofNat_eq _ _ (by omega)⟩

theorem b64encode_of_b64decode : ∀ (s bs : Bytes), b64decode s = some bs → b64encode bs = s
  | [], bs, h => by
    simp only [b64decode, Option.some.injEq] at h
    subst h
    rfl
  | [_], bs, h => by simp [b64decode] at h
  | [c0, c1], bs, h => by
    simp only [b64decode] at h
    cases h0 : b64Val c0 with
    | none => simp [h0] at h
    | some v0 =>
      cases h1 : b64Val c1 with
      | none => simp [h0, h1] at h
      | some v1 =>
        simp only [h0, h1] at h
        split at h
        · simp only [Option.some.injEq] at h
          subst h
          obtain ⟨e0, l0⟩ := b64Char_of_b64Val _ _ h0
          obtain ⟨e1, l1⟩ := b64Char_of_b64Val _ _ h1
          subst e0 e1
          simp only [b64encode, Fin.ofNat, List.cons.injEq, and_true]
          exact ⟨congrArg b64Char (by omega), congrArg b64Char (by omega)⟩
        · simp at h
  | [c0, c1, c2], bs, h => by
    simp only [b64decode] at h
    cases h0 : b64Val c0 with
    | none => simp [h0] at h
    | some v0 =>
      cases h1 : b64Val c1 with
      | none => simp [h0, h1] at h
      | some v1 =>
        cases h2 : b64Val c2 with
        | none => simp [h0, h1, h2] at h
        | some v2 =>
          simp only [h0, h1, h2] at h
          split at h
          · simp only [Option.some.injEq] at h
            subst h
            obtain ⟨e0, l0⟩ := b64Char_of_b64Val _ _ h0
            obtain ⟨e1, l1⟩ := b64Char_of_b64Val _ _ h1
            obtain ⟨e2, l2⟩ := b64Char_of_b64Val _ _ h2
            subst e0 e1 e2
            simp only [b64encode, Fin.ofNat, List.cons.injEq, and_true]
            exact ⟨congrArg b64Char (by omega), congrArg b64Char (by omega),
              congrArg b64Char (by omega)⟩
          · simp at h
  | c0 :: c1 :: c2 :: c3 :: rest, bs, h => by
    simp only [b64decode] at h
    cases h0 : b64Val c0 with
    | none => simp [h0] at h
    | some v0 =>
      cases h1 : b64Val c1 with
      | none => simp [h0, h1] at h
      | some v1 =>
        cases h2 : b64Val c2 with
        | none => simp [h0, h1, h2] at h
        | some v2 =>
          cases h3 : b64Val c3 with
          | none => simp [h0, h1, h2, h3] at h
          | some v3 =>
            cases h4 : b64decode rest with
            | none => simp [h0, h1, h2, h3, h4] at h
            | some tail =>
              simp only [h0, h1, h2, h3, h4, Option.some.injEq] at h
              subst h
              have ih := b64encode_of_b64decode rest tail h4
              obtain ⟨e0, l0⟩ := b64Char_of_b64Val _ _ h0
              obtain ⟨e1, l1⟩ := b64Char_of_b64Val _ _ h1
              obtain ⟨e2, l2⟩ := b64Char_of_b64Val _ _ h2
              obtain ⟨e3, l3⟩ := b64Char_of_b64Val _ _ h3
              subst e0 e1 e2 e3
              simp only [b64encode, Fin.ofNat, List.cons.injEq, ih, and_true]
              exact ⟨congrArg b64Char (by omega), congrArg b64Char (by omega),
                congrArg b64Char (by omega), congrArg b64Char (by omega)⟩

/-! ## Lemmas on the JSON text of objects -/

theorem run_append (st : PState) (a b : Bytes) :
    run st (a ++ b) = (run st a).bind fun st1 => run st1 b := by
  induction a generalizing st with
  | nil => rfl
  | cons c cs ih =>
    simp only [List.cons_append, run]
    cases step st c with
    | none => rfl
    | some st1 => exact ih st1

theorem run_inKey_escape (acc : Obj) (s k rest : Bytes) :
    run (.inKey acc k) (escape s ++ rest) = run (.inKey acc (k ++ s)) rest := by
  induction s generalizing k with
  | nil => simp [escape]
  | cons c cs ih =>
    by_cases hc : c = 34 ∨ c = 92
    · have h1 : step (.inKeyEsc acc k) c = some (.inKey acc (k ++ [c])) := by
        simp [step, hc]
      simp only [escape, hc, if_true, List.cons_append, run]
      have h0 : step (.inKey acc k) 92 = some (.inKeyEsc acc k) := by
        simp [step]
      rw [h0]
      simp only [h1]
      rw [ih]
      simp
    · have h34 : c ≠ 34 := fun h => hc (Or.inl h)
      have h92 : c ≠ 92 := fun h => hc (Or.inr h)
      have h1 : step (.inKey acc k) c = some (.inKey acc (k ++ [c])) := by
        simp [step, h34, h92]
      simp only [escape, hc, if_false, List.cons_append, run, h1]
      rw [ih]
      simp

theorem run_inStr_escape (acc : Obj) (k s t rest : Bytes) :
    run (.inStr acc k t) (escape s ++ rest) = run (.inStr acc k (t ++ s)) rest := by
  induction s generalizing t with
  | nil => simp [escape]
  | cons c cs ih =>
    by_cases hc : c = 34 ∨ c = 92
    · have h1 : step (.inStrEsc acc k t) c = some (.inStr acc k (t ++ [c])) := by
        simp [step, hc]
      simp only [escape, hc, if_true, List.cons_append, run]
      have h0 : step (.inStr acc k t) 92 = some (.inStrEsc acc k t) := by
        simp [step]
      rw [h0]
      simp only [h1]
      rw [ih]
      simp
    · have h34 : c ≠ 34 := fun h => hc (Or.inl h)
      have h92 : c ≠ 92 := fun h => hc (Or.inr h)
      have h1 : step (.inStr acc k t) c = some (.inStr acc k (t ++ [c])) := by
        simp [step, h34, h92]
      simp only [escape, hc, if_false, List.cons_append, run, h1]
      rw [ih]
      simp

theorem quote_append (s rest : Bytes) : quote s ++ rest = 34 :: (escape s ++ 34 :: rest) := by
  simp [quote]

theorem run_key_quote (acc : Obj) (k rest : Bytes) :
    run (.key acc) (quote k ++ rest) = run (.colon acc k) rest := by
  have h0 : step (.key acc) 34 = some (.inKey acc []) := by simp [step]
  have h1 : step (.inKey acc k) 34 = some (.colon acc k) := by simp [step]
  rw [quote_append]
  simp only [run, h0]
  rw [run_inKey_escape]
  simp only [List.nil_append, run, h1]

theorem run_value_quote (acc : Obj) (k s rest : Bytes) :
    run (.value acc k) (quote s ++ rest) = run (.afterValue (acc ++ [(k, .str s)])) rest := by
  have h0 : step (.value acc k) 34 = some (.inStr acc k []) := by simp [step]
  have h1 : step (.inStr acc k s) 34 = some (.afterValue (acc ++ [(k, .str s)])) := by
    simp [step]
  rw [quote_append]
  simp only [run, h0]
  rw [run_inStr_escape]
  simp only [List.nil_append, run, h1]

theorem digitsLE_lt (fuel n : Nat) : ∀ d ∈ digitsLE fuel n, d < 10 := by
  induction fuel generalizing n with
  | zero => simp [digitsLE]
  | succ f ih =>
    intro d hd
    simp only [digitsLE] at hd
    split at hd
    · simp only [List.mem_singleton] at hd
      omega
    · simp only [List.mem_cons] at hd
      rcases hd with hd | hd
      · omega
      · exact ih _ d hd

theorem digitsLE_ne_nil (fuel n : Nat) : digitsLE (fuel + 1) n ≠ [] := by
  simp only [digitsLE]
  split <;> simp

theorem digitsLE_value (fuel n : Nat) (h : n < fuel) :
    (digitsLE fuel n).foldr (fun d a => a * 10 + d) 0 = n := by
  induction fuel generalizing n with
  | zero => omega
  | succ f ih =>
    simp only [digitsLE]
    split
    · simp
    · simp only [List.foldr_cons]
      rw [ih (n / 10) (by omega)]
      omega

theorem digitByte_val (d : Nat) (h : d < 10) : (Fin.ofNat (48 + d) : Byte).val = 48 + d := by
  simp only [Fin.ofNat]
  omega

theorem run_inInt_digits (acc : Obj) (k : Bytes) (neg : Bool) (ds : List Nat)
    (hds : ∀ d ∈ ds, d < 10) (n : Nat) (rest : Bytes) :
    run (.inInt acc k neg n) (ds.map (fun d => (Fin.ofNat (48 + d) : Byte)) ++ rest) =
      run (.inInt acc k neg (ds.foldl (fun a d => a * 10 + d) n)) rest := by
  induction ds generalizing n with
  | nil => rfl
  | cons d ds ih =>
    have hd : d < 10 := hds d (List.mem_cons_self _ _)
    have hv := digitByte_val d hd
    have h1 : step (.inInt acc k neg n) (Fin.ofNat (48 + d)) =
        some (.inInt acc k neg (n * 10 + d)) := by
      have hr : 48 ≤ 48 + d ∧ 48 + d ≤ 57 := by omega
      simp [step, hv, hr]
    simp only [List.map_cons, List.cons_append, run, h1, List.foldl_cons]
    exact ih (fun x hx => hds x (List.mem_cons_of_mem _ hx)) _

theorem run_natText (acc : Obj) (k : Bytes) (neg : Bool) (n : Nat) (rest : Bytes)
    (st : PState)
    (hst : ∀ d, d < 10 → step st (Fin.ofNat (48 + d)) = some (.inInt acc k neg d)) :
    run st (natText n ++ rest) = run (.inInt acc k neg n) rest := by
  have hlt := digitsLE_lt (n + 1) n
  have hval := digitsLE_value (n + 1) n (by omega)
  have hne := digitsLE_ne_nil n n
  simp only [natText]
  rw [← List.foldl_reverse] at hval
  generalize hbe : (digitsLE (n + 1) n).reverse = be at hval
  have hlt2 : ∀ d ∈ be, d < 10 := by
    intro d hd
    rw [← hbe] at hd
    exact hlt d (List.mem_reverse.mp hd)
  cases be with
  | nil =>
    rw [List.reverse_eq_nil_iff] at hbe
    exact absurd hbe hne
  | cons d ds =>
    have hd : d < 10 := hlt2 d (List.mem_cons_self _ _)
    simp only [List.map_cons, List.cons_append, run, hst d hd, List.append_eq]
    rw [run_inInt_digits acc k neg ds (fun x hx => hlt2 x (List.mem_cons_of_mem _ hx))]
    simp only [List.foldl_cons, Nat.zero_mul, Nat.zero_add] at hval
    rw [hval]

theorem run_value_intText (acc : Obj) (k : Bytes) (i : Int) (rest : Bytes) :
    ∃ n neg, signed neg n = i ∧
      run (.value acc k) (intText i ++ rest) = run (.inInt acc k neg n) rest := by
  cases i with
  | ofNat n =>
    refine ⟨n, false, by simp [signed], ?_⟩
    simp only [intText]
    apply run_natText
    intro d hd
    have hv := digitByte_val d hd
    have h34 : (Fin.ofNat (48 + d) : Byte) ≠ 34 := by
      intro h; rw [h] at hv; simp at hv; omega
    have h45 : (Fin.ofNat (48 + d) : Byte) ≠ 45 := by
      intro h; rw [h] at hv; simp at hv; omega
    have hr : 48 ≤ 48 + d ∧ 48 + d ≤ 57 := by omega
    simp [step, h34, h45, hv, hr]
  | negSucc n =>
    refine ⟨n + 1, true, by simp [signed, Int.negSucc_eq], ?_⟩
    have h0 : step (.value acc k) 45 = some (.minus acc k) := by simp [step]
    simp only [intText, List.cons_append, run, h0]
    apply run_natText
    intro d hd
    have hv := digitByte_val d hd
    have hr : 48 ≤ 48 + d ∧ 48 + d ≤ 57 := by omega
    simp [step, hv, hr]

theorem run_key_field (acc : Obj) (k : Bytes) (v : Value) (c : Byte) (rest : Bytes)
    (hc : c = 44 ∨ c = 125) :
    run (.key acc) (quote k ++ 58 :: (valueText v ++ c :: rest)) =
      run (if c = 44 then .key (acc ++ [(k, v)]) else .done (acc ++ [(k, v)])) rest := by
  have h0 : step (.colon acc k) 58 = some (.value acc k) := by simp [step]
  rw [run_key_quote]
  simp only [run, h0]
  cases v with
  | str t =>
    simp only [valueText]
    rw [run_value_quote]
    rcases hc with hc | hc <;> subst hc <;> simp [run, step]
  | int i =>
    obtain ⟨n, neg, hs, hr⟩ := run_value_intText acc k i (c :: rest)
    have s44 : step (.inInt acc k neg n) 44 =
        some (.key (acc ++ [(k, .int (signed neg n))])) := rfl
    have s125 : step (.inInt acc k neg n) 125 =
        some (.done (acc ++ [(k, .int (signed neg n))])) := rfl
    simp only [valueText]
    rw [hr, ← hs]
    rcases hc with hc | hc <;> subst hc
    · simp only [run, s44, if_true]
    · simp only [run, s125]
      rfl

theorem fieldsText_cons (f : Bytes × Value) (fs : Obj) (rest : Bytes) :
    fieldsText (f :: fs) ++ 125 :: rest =
      quote f.1 ++ 58 :: (valueText f.2 ++
        (match fs with
          | [] => 125 :: rest
          | g :: gs => 44 :: (fieldsText (g :: gs) ++ 125 :: rest))) := by
  cases fs with
  | nil => simp [fieldsText]
  | cons g gs => simp [fieldsText]

theorem run_key_fields (f : Bytes × Value) (fs acc : Obj) (rest : Bytes) :
    run (.key acc) (fieldsText (f :: fs) ++ 125 :: rest) = run (.done (acc ++ f :: fs)) rest := by
  induction fs generalizing f acc with
  | nil =>
    rw [fieldsText_cons, run_key_field _ _ _ _ _ (Or.inr rfl)]
    simp
  | cons g gs ih =>
    rw [fieldsText_cons, run_key_field _ _ _ _ _ (Or.inl rfl)]
    simp only [if_true]
    rw [ih]
    simp

theorem run_firstKey_quote (k rest : Bytes) :
    run .firstKey (quote k ++ rest) = run (.key []) (quote k ++ rest) := by
  rw [quote_append]
  simp [run, step]

theorem parseObj_objText (o : Obj) : parseObj (objText o) = some o := by
  cases o with
  | nil => simp [parseObj, objText, fieldsText, run, step]
  | cons f fs =>
    have h0 : step .start 123 = some .firstKey := by simp [step]
    have h1 := run_key_fields f fs [] []
    rw [fieldsText_cons] at h1
    simp only [parseObj, objText, run, h0]
    rw [show fieldsText (f :: fs) ++ [125] = fieldsText (f :: fs) ++ 125 :: [] from rfl,
      fieldsText_cons, run_firstKey_quote, h1]
    simp [run]

/-! ## Lemmas on segments -/

theorem b64Char_ne_dot (n : Nat) : b64Char n ≠ dot := by
  intro h
  have hv : (b64Char n).val = 46 := by rw [h]; rfl
  simp only [b64Char, Fin.ofNat] at hv
  split at hv
  · simp only at hv; omega
  · split at hv
    · simp only at hv; omega
    · split at hv
      · simp only at hv; omega
      · split at hv <;> exact absurd hv (by decide)

theorem dot_not_mem_b64encode (bs : Bytes) : dot ∉ b64encode bs := by
  induction bs using b64encode.induct with
  | case1 => simp [b64encode]
  | case2 a =>
    simp only [b64encode, List.mem_cons, List.mem_singleton, List.not_mem_nil, or_false, not_or]
    exact ⟨(b64Char_ne_dot _).symm, (b64Char_ne_dot _).symm⟩
  | case3 a b =>
    simp only [b64encode, List.mem_cons, List.mem_singleton, List.not_mem_nil, or_false, not_or]
    exact ⟨(b64Char_ne_dot _).symm, (b64Char_ne_dot _).symm, (b64Char_ne_dot _).symm⟩
  | case4 a b c rest ih =>
    simp only [b64encode, List.mem_cons, not_or]
    exact ⟨(b64Char_ne_dot _).symm, (b64Char_ne_dot _).symm, (b64Char_ne_dot _).symm,
      (b64Char_ne_dot _).symm, ih⟩

theorem dot_not_mem_of_b64decode (s bs : Bytes) (h : b64decode s = some bs) : dot ∉ s := by
  rw [← b64encode_of_b64decode s bs h]
  exact dot_not_mem_b64encode bs

theorem splitDot_ne_nil (t : Bytes) : splitDot t ≠ [] := by
  cases t with
  | nil => simp [splitDot]
  | cons c cs =>
    simp only [splitDot]
    split
    · simp
    · split <;> simp

theorem splitDot_of_not_mem (a : Bytes) (h : dot ∉ a) : splitDot a = [a] := by
  induction a with
  | nil => rfl
  | cons c cs ih =>
    simp only [List.mem_cons, not_or] at h
    have hc : c ≠ dot := fun e => h.1 e.symm
    simp only [splitDot, hc, if_false, ih h.2]

theorem splitDot_append (a b : Bytes) (h : dot ∉ a) :
    splitDot (a ++ dot :: b) = a :: splitDot b := by
  induction a with
  | nil => simp [splitDot]
  | cons c cs ih =>
    simp only [List.mem_cons, not_or] at h
    have hc : c ≠ dot := fun e => h.1 e.symm
    simp only [List.cons_append, splitDot, hc, if_false, List.append_eq, ih h.2]

theorem length_splitDot (t : Bytes) : (splitDot t).length = t.count dot + 1 := by
  induction t with
  | nil => rfl
  | cons c cs ih =>
    by_cases hc : c = dot
    · subst hc
      simp [splitDot, ih]
    · have hc2 : ¬ (c == dot) = true := by simpa using hc
      simp only [splitDot, hc, if_false]
      rw [List.count_cons, if_neg hc2, ← ih]
      cases hsp : splitDot cs with
      | nil => exact absurd hsp (splitDot_ne_nil cs)
      | cons seg segs => simp

theorem splitDot_three (h p s : Bytes) (hh : dot ∉ h) (hp : dot ∉ p) (hs : dot ∉ s) :
    splitDot (h ++ dot :: (p ++ dot :: s)) = [h, p, s] := by
  rw [splitDot_append h _ hh, splitDot_append p _ hp, splitDot_of_not_mem s hs]

/-! ## Verification of a signed token -/

theorem verify_segments (H : HashFn) (cfg : Config) (now : Int) (h p s hb pb sig : Bytes)
    (hdr payload : Obj) (hh : b64decode h = some hb) (hp : b64decode p = some pb)
    (hs : b64decode s = some sig) (hhdr : parseObj hb = some hdr)
    (hpay : parseObj pb = some payload) :
    verify H cfg now (h ++ dot :: (p ++ dot :: s)) =
      if sig = hmac H cfg.secret (h ++ dot :: p) then expiryCheck now hdr payload
      else .error .InvalidTokenError := by
  have hsplit := splitDot_three h p s (dot_not_mem_of_b64decode h hb hh)
    (dot_not_mem_of_b64decode p pb hp) (dot_not_mem_of_b64decode s sig hs)
  simp only [verify, hsplit, hh, hp, hs, hhdr, hpay, expiryCheck]

theorem verify_sign_other (H : HashFn) (cfg : Config) (now : Int) (secret : Bytes)
    (hdr payload : Obj) :
    verify H cfg now (sign H secret hdr payload) =
      if hmac H secret (b64encode (objText hdr) ++ dot :: b64encode (objText payload)) =
          hmac H cfg.secret (b64encode (objText hdr) ++ dot :: b64encode (objText payload))
      then expiryCheck now hdr payload else .error .InvalidTokenError := by
  simp only [sign]
  rw [verify_segments H cfg now _ _ _ _ _ _ hdr payload (b64decode_b64encode _)
    (b64decode_b64encode _) (b64decode_b64encode _) (parseObj_objText _) (parseObj_objText _)]

theorem verify_sign (H : HashFn) (cfg : Config) (now : Int) (hdr payload : Obj) :
    verify H cfg now (sign H cfg.secret hdr payload) = expiryCheck now hdr payload := by
  rw [verify_sign_other, if_pos rfl]

theorem getField_setField_same (k : Bytes) (v : Value) (o : Obj) :
    getField k (setField k v o) = some v := by
  induction o with
  | nil => simp [setField, getField]
  | cons f fs ih =>
    by_cases hf : f.1 = k
    · simp [setField, getField, hf]
    · simp [setField, getField, hf, ih]

theorem getField_setField_ne (k k1 : Bytes) (v : Value) (o : Obj) (h : k1 ≠ k) :
    getField k (setField k1 v o) = getField k o := by
  induction o with
  | nil => simp [setField, getField, h]
  | cons f fs ih =>
    by_cases hf : f.1 = k1
    · have hfk : f.1 ≠ k := by rw [hf]; exact h
      simp [setField, getField, hf, hfk, h]
    · by_cases hfk : f.1 = k
      · simp only [setField, hf, if_false]
        simp only [getField, hfk, if_true]
      · simp only [setField, hf, if_false]
        simp only [getField, hfk, if_false, ih]

theorem getField_exp_payloadOf (cfg : Config) (now : Int) (name : Bytes) (value : Int) :
    getField (ascii "exp") (payloadOf cfg now name value) =
      some (.int (now + cfg.sessionLifetime)) := by
  simp only [payloadOf, getField_setField_same]

theorem getField_claim_payloadOf (cfg : Config) (now : Int) (name : Bytes) (value : Int)
    (hname : name ≠ ascii "exp") :
    getField name (payloadOf cfg now name value) = some (.int value) := by
  simp only [payloadOf]
  rw [getField_setField_ne _ _ _ _ (Ne.symm hname), getField_setField_same]

theorem verify_issue (H : HashFn) (cfg : Config) (now t : Int) (name : Bytes) (value : Int) :
    verify H cfg t (issue H cfg now name value) =
      if t < now + cfg.sessionLifetime then
        .ok ⟨header, payloadOf cfg now name value⟩
      else .error .InvalidTokenError := by
  simp only [issue, verify_sign, expiryCheck, getField_exp_payloadOf]

/-! ## The claims on the token service -/

/-- C1 (as amended): for every claim name other than `exp` and every integer value, with
a positive session lifetime, `verify` at the clock reading of the issuance accepts the
issued token, and the lookup of the claim name on the accessor returns the value. -/
theorem issue_verify_roundtrip (H : HashFn) (cfg : Config) (now : Int) (name : Bytes)
    (value : Int) (hlife : 0 < cfg.sessionLifetime) (hname : name ≠ ascii "exp") :
    ∃ c, verify H cfg now (issue H cfg now name value) = .ok c ∧
      c.lookup name = .ok (.int value) := by
  refine ⟨⟨header, payloadOf cfg now name value⟩, ?_, ?_⟩
  · rw [verify_issue, if_pos (by omega)]
  · simp only [Claims.lookup, getField_claim_payloadOf cfg now name value hname]

theorem issue_verify_roundtrip_witness :
    (0 : Int) < testConfig.sessionLifetime ∧ ascii "user_id" ≠ ascii "exp" ∧
      ∃ c, verify sampleHash testConfig 1000
          (issue sampleHash testConfig 1000 (ascii "user_id") 42) = .ok c ∧
        c.lookup (ascii "user_id") = .ok (.int 42) :=
  ⟨by decide, by decide,
    issue_verify_roundtrip sampleHash testConfig 1000 (ascii "user_id") 42 (by decide)
      (by decide)⟩

/-- C1 fails as stated: the token issued for the claim name `exp` with value 42 at
clock reading 1000 (lifetime 3600) is accepted, but the lookup of `exp` returns the
expiration 4600, not 42. -/
theorem issue_verify_roundtrip_counterexample :
    (∃ c, verify sampleHash testConfig 1000
        (issue sampleHash testConfig 1000 (ascii "exp") 42) = .ok c ∧
      c.lookup (ascii "exp") = .ok (.int 4600)) ∧
    ¬ ∃ c, verify sampleHash testConfig 1000
        (issue sampleHash testConfig 1000 (ascii "exp") 42) = .ok c ∧
      c.lookup (ascii "exp") = .ok (.int 42) := by
  have hv2 : verify sampleHash testConfig 1000
      (issue sampleHash testConfig 1000 (ascii "exp") 42) =
      .ok ⟨header, payloadOf testConfig 1000 (ascii "exp") 42⟩ := by decide
  refine ⟨⟨_, hv2, by decide⟩, ?_⟩
  intro ⟨c, hv, hl⟩
  rw [hv2] at hv
  injection hv with hv
  subst hv
  revert hl
  decide

/-- C2: `verify` at any clock reading strictly later than the issuance time plus the
session lifetime fails with `InvalidTokenError`; a service with session lifetime -1
rejects its own token at once; and a token signed with the configured secret whose
`exp` lies 10 seconds in the past is rejected. -/
theorem expired_token_rejected (H : HashFn) (cfg : Config) (now t : Int) (name : Bytes)
    (value : Int) (hdr payload : Obj) (h : now + cfg.sessionLifetime < t) :
    verify H cfg t (issue H cfg now name value) = .error .InvalidTokenError ∧
    verify H ⟨cfg.secret, -1, cfg.issuer⟩ now
        (issue H ⟨cfg.secret, -1, cfg.issuer⟩ now name value) = .error .InvalidTokenError ∧
    verify H cfg now
        (sign H cfg.secret hdr (setField (ascii "exp") (.int (now - 10)) payload)) =
      .error .InvalidTokenError := by
  refine ⟨?_, ?_, ?_⟩
  · rw [verify_issue, if_neg (by omega)]
  · rw [verify_issue, if_neg (by simp)]
  · rw [verify_sign]
    simp only [expiryCheck, getField_setField_same]
    rw [if_neg (by omega)]

theorem expired_token_rejected_witness :
    (1000 : Int) + testConfig.sessionLifetime < 4601 ∧
    verify sampleHash testConfig 4601
        (issue sampleHash testConfig 1000 (ascii "user_id") 42) = .error .InvalidTokenError ∧
    verify sampleHash ⟨testConfig.secret, -1, testConfig.issuer⟩ 1000
        (issue sampleHash ⟨testConfig.secret, -1, testConfig.issuer⟩ 1000 (ascii "user_id") 42) =
      .error .InvalidTokenError ∧
    verify sampleHash testConfig 1000
        (sign sampleHash testConfig.secret header
          (setField (ascii "exp") (.int (1000 - 10))
            [(ascii "iss", .str (ascii "test_issuer")), (ascii "user_id", .str (ascii "42"))])) =
      .error .InvalidTokenError :=
  ⟨by decide,
    expired_token_rejected sampleHash testConfig 1000 4601 (ascii "user_id") 42 header
      [(ascii "iss", .str (ascii "test_issuer")), (ascii "user_id", .str (ascii "42"))]
      (by decide)⟩

/-- C4: a token signed with the configured secret whose payload has no `exp` field is
rejected by `verify` with `InvalidTokenError`. -/
theorem missing_expiration_rejected (H : HashFn) (cfg : Config) (now : Int)
    (hdr payload : Obj) (hexp : getField (ascii "exp") payload = none) :
    verify H cfg now (sign H cfg.secret hdr payload) = .error .InvalidTokenError := by
  rw [verify_sign]
  simp only [expiryCheck, hexp]

theorem missing_expiration_rejected_witness :
    getField (ascii "exp")
        [(ascii "iss", .str (ascii "test_issuer")), (ascii "typ", .str typeMarker),
          (ascii "user_id", .str (ascii "42"))] = none ∧
    verify sampleHash testConfig 1000
        (sign sampleHash testConfig.secret header
          [(ascii "iss", .str (ascii "test_issuer")), (ascii "typ", .str typeMarker),
            (ascii "user_id", .str (ascii "42"))]) = .error .InvalidTokenError :=
  ⟨by decide, missing_expiration_rejected sampleHash testConfig 1000 header _ (by decide)⟩

/-- C5: for a token signed with the configured secret, unexpired, whose payload has no
field `n`, `verify` succeeds, and the lookup of `n` on the returned accessor fails with
`MissingClaimError`. -/
theorem missing_claim_lazy (H : HashFn) (cfg : Config) (now e : Int) (hdr payload : Obj)
    (n : Bytes) (hexp : getField (ascii "exp") payload = some (.int e)) (hnow : now < e)
    (hn : getField n payload = none) :
    ∃ c, verify H cfg now (sign H cfg.secret hdr payload) = .ok c ∧
      c.lookup n = .error .MissingClaimError ∧
      c.lookup n ≠ .error .InvalidTokenError := by
  refine ⟨⟨hdr, payload⟩, ?_, ?_, ?_⟩
  · rw [verify_sign]
    simp only [expiryCheck, hexp, if_pos hnow]
  · simp only [Claims.lookup, hn]
  · simp only [Claims.lookup, hn]
    intro h
    cases h

theorem missing_claim_lazy_witness :
    getField (ascii "exp")
        [(ascii "iss", .str (ascii "test_issuer")), (ascii "exp", .int 4600)] =
      some (.int 4600) ∧
    (1000 : Int) < 4600 ∧
    getField (ascii "missing_field")
        [(ascii "iss", .str (ascii "test_issuer")), (ascii "exp", .int 4600)] = none ∧
    ∃ c, verify sampleHash testConfig 1000
        (sign sampleHash testConfig.secret header
          [(ascii "iss", .str (ascii "test_issuer")), (ascii "exp", .int 4600)]) = .ok c ∧
      c.lookup (ascii "missing_field") = .error .MissingClaimError ∧
      c.lookup (ascii "missing_field") ≠ .error .InvalidTokenError :=
  ⟨by decide, by decide, by decide,
    missing_claim_lazy sampleHash testConfig 1000 4600 header _ (ascii "missing_field")
      (by decide) (by decide) (by decide)⟩

theorem verify_ok_exp (H : HashFn) (cfg : Config) (now : Int) (token : Bytes) (c : Claims)
    (h : verify H cfg now token = .ok c) :
    ∃ e, getField (ascii "exp") c.payload = some (.int e) ∧ now < e := by
  simp only [verify] at h
  split at h
  · split at h
    · split at h
      · split at h
        · split at h
          · split at h
            · injection h with h
              subst h
              exact ⟨_, by assumption, by assumption⟩
            · cases h
          · cases h
        · cases h
      · cases h
    · cases h
  · cases h

/-- C6: `verify` accepts a token only if its `exp` is strictly later than the clock
reading; so a token signed with the configured secret is rejected with
`InvalidTokenError` at the clock reading equal to its `exp`. -/
theorem expiry_boundary (H : HashFn) (cfg : Config) (now : Int) (hdr payload : Obj)
    (hexp : getField (ascii "exp") payload = some (.int now)) :
    (∀ token c, verify H cfg now token = .ok c →
      ∃ e, getField (ascii "exp") c.payload = some (.int e) ∧ now < e) ∧
    verify H cfg now (sign H cfg.secret hdr payload) = .error .InvalidTokenError := by
  refine ⟨fun token c h => verify_ok_exp H cfg now token c h, ?_⟩
  rw [verify_sign]
  simp only [expiryCheck, hexp, lt_self_iff_false, if_false]

theorem expiry_boundary_witness :
    getField (ascii "exp") (payloadOf testConfig 1000 (ascii "user_id") 42) =
      some (.int 4600) ∧
    (∀ token c, verify sampleHash testConfig 4600 token = .ok c →
      ∃ e, getField (ascii "exp") c.payload = some (.int e) ∧ 4600 < e) ∧
    verify sampleHash testConfig 4600
      (sign sampleHash testConfig.secret header
        (payloadOf testConfig 1000 (ascii "user_id") 42)) = .error .InvalidTokenError :=
  ⟨by decide,
    expiry_boundary sampleHash testConfig 4600 header
      (payloadOf testConfig 1000 (ascii "user_id") 42) (by decide)⟩

theorem wellFormed_sign (H : HashFn) (secret : Bytes) (hdr payload : Obj) :
    WellFormed (sign H secret hdr payload) :=
  ⟨_, _, _, _, _, _, hdr, payload, rfl, b64decode_b64encode _, parseObj_objText _,
    b64decode_b64encode _, parseObj_objText _, b64decode_b64encode _⟩

/-- C8: `issue` is total and returns a non-empty token, which is a well-formed
three-segment token, for every claim name and every integer value, the empty name and
negative values included. -/
theorem issue_nonempty (H : HashFn) (cfg : Config) (now : Int) (name : Bytes)
    (value : Int) :
    (issue H cfg now name value ≠ [] ∧ WellFormed (issue H cfg now name value)) ∧
    (issue H cfg now [] value ≠ [] ∧ WellFormed (issue H cfg now [] value)) ∧
    (issue H cfg now name (-value) ≠ [] ∧ WellFormed (issue H cfg now name (-value))) := by
  have hne : ∀ n v, issue H cfg now n v ≠ [] := by
    intro n v
    simp [issue, sign]
  have hwf : ∀ n v, WellFormed (issue H cfg now n v) := by
    intro n v
    exact wellFormed_sign H cfg.secret header (payloadOf cfg now n v)
  exact ⟨⟨hne _ _, hwf _ _⟩, ⟨hne _ _, hwf _ _⟩, ⟨hne _ _, hwf _ _⟩⟩

theorem verify_ok_inv (H : HashFn) (cfg : Config) (now : Int) (t : Bytes) (c : Claims)
    (hv : verify H cfg now t = .ok c) :
    ∃ h p s hb pb sig e, splitDot t = [h, p, s] ∧ b64decode h = some hb ∧
      b64decode p = some pb ∧ b64decode s = some sig ∧ parseObj hb = some c.header ∧
      parseObj pb = some c.payload ∧ sig = hmac H cfg.secret (h ++ dot :: p) ∧
      getField (ascii "exp") c.payload = some (.int e) ∧ now < e := by
  simp only [verify] at hv
  split at hv
  · split at hv
    · split at hv
      · split at hv
        · split at hv
          · split at hv
            · injection hv with hv
              subst hv
              exact ⟨_, _, _, _, _, _, _, by assumption, by assumption, by assumption,
                by assumption, by assumption, by assumption, by assumption, by assumption,
                by assumption⟩
            · cases hv
          · cases hv
        · cases hv
      · cases hv
    · cases hv
  · cases hv

theorem verify_error_kind (H : HashFn) (cfg : Config) (now : Int) (t : Bytes)
    (e : TokenError) (hv : verify H cfg now t = .error e) : e = .InvalidTokenError := by
  simp only [verify] at hv
  split at hv
  · split at hv
    · split at hv
      · split at hv
        · split at hv
          · split at hv
            · cases hv
            · injection hv with hv; exact hv.symm
          · injection hv with hv; exact hv.symm
        · injection hv with hv; exact hv.symm
      · injection hv with hv; exact hv.symm
    · injection hv with hv; exact hv.symm
  · injection hv with hv; exact hv.symm

theorem verify_error_of_not_ok (H : HashFn) (cfg : Config) (now : Int) (t : Bytes)
    (h : ∀ c, verify H cfg now t ≠ .ok c) :
    verify H cfg now t = .error .InvalidTokenError := by
  cases hv : verify H cfg now t with
  | error e => rw [verify_error_kind H cfg now t e hv]
  | ok c => exact absurd hv (h c)

theorem splitDot_three_inv (h p s a b c : Bytes)
    (hsp : splitDot (h ++ dot :: (p ++ dot :: s)) = [a, b, c]) : a = h ∧ b = p ∧ c = s := by
  have hl := length_splitDot (h ++ dot :: (p ++ dot :: s))
  rw [hsp] at hl
  simp only [List.length_cons, List.length_nil, List.count_append, List.count_cons_self] at hl
  have hh : dot ∉ h := List.count_eq_zero.mp (by omega)
  have hp : dot ∉ p := List.count_eq_zero.mp (by omega)
  have hs : dot ∉ s := List.count_eq_zero.mp (by omega)
  rw [splitDot_three h p s hh hp hs] at hsp
  simp only [List.cons.injEq, and_true] at hsp
  exact ⟨hsp.1.symm, hsp.2.1.symm, hsp.2.2.symm⟩

theorem intercalate_splitDot (t : Bytes) : List.intercalate [dot] (splitDot t) = t := by
  induction t with
  | nil => simp [splitDot, List.intercalate]
  | cons c cs ih =>
    cases hsp : splitDot cs with
    | nil => exact absurd hsp (splitDot_ne_nil cs)
    | cons seg segs =>
      rw [hsp] at ih
      by_cases hc : c = dot
      · subst hc
        simp only [splitDot, if_true, hsp]
        rw [← ih]
        simp [List.intercalate, List.intersperse]
      · simp only [splitDot, hc, if_false, hsp]
        rw [← ih]
        cases segs <;> simp [List.intercalate, List.intersperse]

theorem splitDot_join (t h p s : Bytes) (hsp : splitDot t = [h, p, s]) :
    t = h ++ dot :: (p ++ dot :: s) := by
  have := intercalate_splitDot t
  rw [hsp] at this
  rw [← this]
  simp [List.intercalate, List.intersperse]

theorem tampered_header_rejected (H : HashFn) (cfg : Config) (now : Int) (name : Bytes)
    (value : Int) :
    verify H cfg now ((issue H cfg now name value).set 10 120) =
      .error .InvalidTokenError := by
  have hseg : b64encode (objText header) = ascii "eyJhbGciOiJIUzI1NiJ9" := by decide
  have hset : ∀ rest : Bytes, (ascii "eyJhbGciOiJIUzI1NiJ9" ++ rest).set 10 120 =
      ascii "eyJhbGciOixIUzI1NiJ9" ++ rest := by
    intro rest
    rfl
  have hnd : dot ∉ ascii "eyJhbGciOixIUzI1NiJ9" := by decide
  have hdec : (b64decode (ascii "eyJhbGciOixIUzI1NiJ9")).bind parseObj = none := by decide
  simp only [issue, sign, hseg, hset]
  simp only [verify, splitDot_three _ _ _ hnd (dot_not_mem_b64encode _)
    (dot_not_mem_b64encode _), b64decode_b64encode]
  cases hd : b64decode (ascii "eyJhbGciOixIUzI1NiJ9") with
  | none => rfl
  | some hb =>
    rw [hd] at hdec
    simp only [Option.some_bind] at hdec
    simp only [hdec]

/-- C3: if `verify` accepts the token `h.p.s`, then replacing the character at any
position `i` of the signature segment `s` by a different character gives a token that
`verify` rejects with `InvalidTokenError`; and, as in the test, an issued token whose
character at index 10 is overwritten with `x` (120) is rejected. -/
theorem tampered_signature_rejected (H : HashFn) (cfg : Config) (now : Int)
    (h p s : Bytes) (c0 : Claims) (i : Nat) (x : Byte) (name : Bytes) (value : Int)
    (hi : i < s.length)
    (hacc : verify H cfg now (h ++ dot :: (p ++ dot :: s)) = .ok c0)
    (hx : s[i] ≠ x) :
    verify H cfg now (h ++ dot :: (p ++ dot :: s.set i x)) = .error .InvalidTokenError ∧
    verify H cfg now ((issue H cfg now name value).set 10 120) =
      .error .InvalidTokenError := by
  refine ⟨?_, tampered_header_rejected H cfg now name value⟩
  apply verify_error_of_not_ok
  intro c1 hv
  obtain ⟨h0, p0, s0, hb0, pb0, sig0, t0, hsp0, -, -, hs0, -, -, hsig0, -, -⟩ :=
    verify_ok_inv H cfg now _ c0 hacc
  obtain ⟨h1, p1, s1, hb1, pb1, sig1, t1, hsp1, -, -, hs1, -, -, hsig1, -, -⟩ :=
    verify_ok_inv H cfg now _ c1 hv
  obtain ⟨rfl, rfl, rfl⟩ := splitDot_three_inv _ _ _ _ _ _ hsp0
  obtain ⟨rfl, rfl, rfl⟩ := splitDot_three_inv _ _ _ _ _ _ hsp1
  have e0 := b64encode_of_b64decode _ _ hs0
  have e1 := b64encode_of_b64decode _ _ hs1
  rw [hsig0] at e0
  rw [hsig1, e0] at e1
  have h2 := congrArg (fun l => l[i]?) e1
  simp [hi] at h2
  exact hx h2

theorem tampered_signature_rejected_witness :
    verify sampleHash testConfig 1000
        (ascii "eyJhbGciOiJIUzI1NiJ9" ++ dot ::
          (ascii "eyJpc3MiOiJ0ZXN0X2lzc3VlciIsInR5cCI6IkpXVCIsInVzZXJfaWQiOjQyLCJleHAiOjQ2MDB9" ++
            dot :: ascii "IxkQxA")) =
      .ok ⟨header, payloadOf testConfig 1000 (ascii "user_id") 42⟩ ∧
    (ascii "IxkQxA").get ⟨5, by decide⟩ ≠ 66 ∧
    verify sampleHash testConfig 1000
        (ascii "eyJhbGciOiJIUzI1NiJ9" ++ dot ::
          (ascii "eyJpc3MiOiJ0ZXN0X2lzc3VlciIsInR5cCI6IkpXVCIsInVzZXJfaWQiOjQyLCJleHAiOjQ2MDB9" ++
            dot :: (ascii "IxkQxA").set 5 66)) = .error .InvalidTokenError ∧
    verify sampleHash testConfig 1000
        ((issue sampleHash testConfig 1000 (ascii "user_id") 42).set 10 120) =
      .error .InvalidTokenError :=
  ⟨by decide, by decide,
    tampered_signature_rejected sampleHash testConfig 1000 (ascii "eyJhbGciOiJIUzI1NiJ9")
      (ascii "eyJpc3MiOiJ0ZXN0X2lzc3VlciIsInR5cCI6IkpXVCIsInVzZXJfaWQiOjQyLCJleHAiOjQ2MDB9")
      (ascii "IxkQxA") ⟨header, payloadOf testConfig 1000 (ascii "user_id") 42⟩ 5 66
      (ascii "user_id") 42 (by decide) (by decide) (by decide)⟩

theorem wellFormed_of_verify_ok (H : HashFn) (cfg : Config) (now : Int) (t : Bytes)
    (c : Claims) (hv : verify H cfg now t = .ok c) : WellFormed t := by
  obtain ⟨h, p, s, hb, pb, sig, e, hsp, hh, hp, hs, hhdr, hpay, -, -, -⟩ :=
    verify_ok_inv H cfg now t c hv
  exact ⟨h, p, s, hb, pb, sig, c.header, c.payload, splitDot_join t h p s hsp, hh, hhdr, hp,
    hpay, hs⟩

theorem not_wellFormed_sample : ¬ WellFormed (ascii "invalid.token.value") := by
  rintro ⟨h, p, s, hb, pb, sig, hdr, payload, ht, hh, -, hp, -, hs⟩
  have hsp : splitDot (ascii "invalid.token.value") =
      [ascii "invalid", ascii "token", ascii "value"] := by decide
  rw [ht, splitDot_three h p s (dot_not_mem_of_b64decode h hb hh)
    (dot_not_mem_of_b64decode p pb hp) (dot_not_mem_of_b64decode s sig hs)] at hsp
  simp only [List.cons.injEq, and_true] at hsp
  have hnone : b64decode (ascii "invalid") = none := by decide
  rw [hsp.1, hnone] at hh
  cases hh

/-- C9: a string that is not three dot-separated base64url segments holding a header,
a payload and a signature is rejected by `verify` with `InvalidTokenError`; so is
"invalid.token.value". -/
theorem malformed_token_rejected (H : HashFn) (cfg : Config) (now : Int) (t : Bytes)
    (hmal : ¬ WellFormed t) :
    verify H cfg now t = .error .InvalidTokenError ∧
    verify H cfg now (ascii "invalid.token.value") = .error .InvalidTokenError := by
  refine ⟨?_, rfl⟩
  apply verify_error_of_not_ok
  intro c hv
  exact hmal (wellFormed_of_verify_ok H cfg now t c hv)

theorem malformed_token_rejected_witness :
    ¬ WellFormed (ascii "invalid_token") ∧
    verify sampleHash testConfig 1000 (ascii "invalid_token") = .error .InvalidTokenError ∧
    verify sampleHash testConfig 1000 (ascii "invalid.token.value") =
      .error .InvalidTokenError :=
  have hmal : ¬ WellFormed (ascii "invalid_token") := by
    rintro ⟨h, p, s, hb, pb, sig, hdr, payload, ht, -⟩
    have hmem : dot ∈ ascii "invalid_token" := by
      rw [ht]
      simp
    revert hmem
    decide
  ⟨hmal, malformed_token_rejected sampleHash testConfig 1000 (ascii "invalid_token") hmal⟩

/-! ## Secrets and altered payloads -/

theorem hmacKey_append_zero (H : HashFn) (secret : Bytes) (h : secret.length < H.blockSize) :
    hmacKey H (secret ++ [0]) = hmacKey H secret := by
  have h1 : ¬ H.blockSize < secret.length + 1 := by omega
  have h2 : ¬ H.blockSize < secret.length := by omega
  have h3 : H.blockSize - secret.length = (H.blockSize - (secret.length + 1)) + 1 := by omega
  simp only [hmacKey, h1, h2, if_false, List.length_append, List.length_singleton]
  rw [h3, List.replicate_succ]
  simp

/-- Two secrets that differ only by a final zero byte give the same HMAC tag, whatever
the hash function. -/
theorem hmac_append_zero (H : HashFn) (secret msg : Bytes) (h : secret.length < H.blockSize) :
    hmac H (secret ++ [0]) msg = hmac H secret msg := by
  simp only [hmac, hmacKey_append_zero H secret h]

/-- Key blocks of the same length that are different differ at a byte position. -/
theorem exists_differ_of_ne (a b : Bytes) (hl : a.length = b.length) (hne : a ≠ b) :
    ∃ (i : Nat) (x y : Byte), a[i]? = some x ∧ b[i]? = some y ∧ x ≠ y := by
  induction a generalizing b with
  | nil =>
    cases b with
    | nil => exact absurd rfl hne
    | cons d ds => simp at hl
  | cons c cs ih =>
    cases b with
    | nil => simp at hl
    | cons d ds =>
      by_cases hcd : c = d
      · subst hcd
        obtain ⟨i, x, y, hx, hy, hxy⟩ :=
          ih ds (by simpa using hl) (fun h => hne (by rw [h]))
        exact ⟨i + 1, x, y, by simpa using hx, by simpa using hy, hxy⟩
      · exact ⟨0, c, d, by simp, by simp, hcd⟩

theorem length_hmacKey (H : HashFn) (secret : Bytes) (h : secret.length ≤ H.blockSize) :
    (hmacKey H secret).length = H.blockSize := by
  have h1 : ¬ H.blockSize < secret.length := by omega
  simp only [hmacKey, h1, if_false, List.length_append, List.length_replicate]
  omega

/-- For secrets no longer than a block, key blocks that are different differ at a byte
position. -/
theorem hmacKey_differ_of_ne (H : HashFn) (s1 s2 : Bytes) (h1 : s1.length ≤ H.blockSize)
    (h2 : s2.length ≤ H.blockSize) (hne : hmacKey H s1 ≠ hmacKey H s2) :
    ∃ (i : Nat) (x y : Byte), (hmacKey H s1)[i]? = some x ∧ (hmacKey H s2)[i]? = some y ∧
      x ≠ y :=
  exists_differ_of_ne _ _ (by rw [length_hmacKey H s1 h1, length_hmacKey H s2 h2]) hne

/-- The payload segments of two values of a claim other than `exp` are different. -/
theorem payloadSegment_ne (cfg : Config) (now : Int) (name : Bytes) (v1 v2 : Int)
    (hname : name ≠ ascii "exp") (hv : v1 ≠ v2) :
    b64encode (objText (payloadOf cfg now name v2)) ≠
      b64encode (objText (payloadOf cfg now name v1)) := by
  intro heq
  have h1 := congrArg b64decode heq
  rw [b64decode_b64encode, b64decode_b64encode, Option.some.injEq] at h1
  have h2 := congrArg parseObj h1
  rw [parseObj_objText, parseObj_objText, Option.some.injEq] at h2
  have h3 := congrArg (getField name) h2
  rw [getField_claim_payloadOf _ _ _ _ hname, getField_claim_payloadOf _ _ _ _ hname] at h3
  injection h3 with h3
  injection h3 with h3
  exact hv h3.symm

/-- Every hash function whose outputs have a bounded length, as those of every hash
function in use, has two values of the claim with the same tag: the token issued for the
first, its payload segment replaced by the payload segment for the second, is accepted.
So the rejection of an altered payload needs the hash function to be free of collisions. -/
theorem altered_payload_accepted (H : HashFn) (n : Nat) (hb : ∀ x, (H.hash x).length ≤ n)
    (cfg : Config) (now : Int) (name : Bytes) (hlife : 0 < cfg.sessionLifetime)
    (hname : name ≠ ascii "exp") :
    ∃ v1 v2 : Int,
      issue H cfg now name v1 =
        b64encode (objText header) ++ dot ::
          (b64encode (objText (payloadOf cfg now name v1)) ++ dot ::
            b64encode (hmac H cfg.secret (signingInput header (payloadOf cfg now name v1)))) ∧
      b64encode (objText (payloadOf cfg now name v2)) ≠
        b64encode (objText (payloadOf cfg now name v1)) ∧
      verify H cfg now
          (b64encode (objText header) ++ dot ::
            (b64encode (objText (payloadOf cfg now name v2)) ++ dot ::
              b64encode (hmac H cfg.secret (signingInput header (payloadOf cfg now name v1))))) =
        .ok ⟨header, payloadOf cfg now name v2⟩ := by
  obtain ⟨v1, -, v2, -, hne, heq⟩ :=
    Set.infinite_univ.exists_ne_map_eq_of_mapsTo
      (f := fun v : Int => hmac H cfg.secret (signingInput header (payloadOf cfg now name v)))
      (t := {l : Bytes | l.length ≤ n}) (fun v _ => hb _) (List.finite_length_le Byte n)
  refine ⟨v1, v2, rfl, payloadSegment_ne cfg now name v1 v2 hname hne, ?_⟩
  rw [heq]
  have h := verify_issue H cfg now now name v2
  rw [if_pos (by omega)] at h
  exact h

theorem payloadOfToken_sign (H : HashFn) (secret : Bytes) (hdr payload : Obj) :
    payloadOfToken (sign H secret hdr payload) = some payload := by
  simp only [payloadOfToken, sign, splitDot_three _ _ _ (dot_not_mem_b64encode _)
    (dot_not_mem_b64encode _) (dot_not_mem_b64encode _), b64decode_b64encode,
    Option.some_bind, parseObj_objText]

/-- C10 (as amended): the token issued for a claim name other than `iss`, `typ` and
`exp` consists of three base64url segments separated by `.`, and its payload carries
`iss` equal to the configured issuer, `typ` equal to the type marker, the claim with its
value, and `exp` equal to the clock reading plus the session lifetime. -/
theorem issue_payload (H : HashFn) (cfg : Config) (now : Int) (name : Bytes) (value : Int)
    (hiss : name ≠ ascii "iss") (htyp : name ≠ ascii "typ") (hexp : name ≠ ascii "exp") :
    ∃ h p s payload,
      issue H cfg now name value = h ++ dot :: (p ++ dot :: s) ∧
      splitDot (issue H cfg now name value) = [h, p, s] ∧
      (b64decode h).isSome ∧ (b64decode p).isSome ∧ (b64decode s).isSome ∧
      payloadOfToken (issue H cfg now name value) = some payload ∧
      getField (ascii "iss") payload = some (.str cfg.issuer) ∧
      getField (ascii "typ") payload = some (.str typeMarker) ∧
      getField name payload = some (.int value) ∧
      getField (ascii "exp") payload = some (.int (now + cfg.sessionLifetime)) := by
  have e1 : ascii "exp" ≠ ascii "iss" := by decide
  have e2 : ascii "typ" ≠ ascii "iss" := by decide
  have e3 : ascii "exp" ≠ ascii "typ" := by decide
  refine ⟨_, _, _, payloadOf cfg now name value, rfl, ?_, ?_, ?_, ?_, ?_, ?_, ?_, ?_, ?_⟩
  · exact splitDot_three _ _ _ (dot_not_mem_b64encode _) (dot_not_mem_b64encode _)
      (dot_not_mem_b64encode _)
  · simp [b64decode_b64encode]
  · simp [b64decode_b64encode]
  · simp [b64decode_b64encode]
  · exact payloadOfToken_sign _ _ _ _
  · simp only [payloadOf]
    rw [getField_setField_ne _ _ _ _ e1, getField_setField_ne _ _ _ _ hiss,
      getField_setField_ne _ _ _ _ e2, getField_setField_same]
  · simp only [payloadOf]
    rw [getField_setField_ne _ _ _ _ e3, getField_setField_ne _ _ _ _ htyp,
      getField_setField_same]
  · exact getField_claim_payloadOf cfg now name value hexp
  · exact getField_exp_payloadOf cfg now name value

theorem issue_payload_witness :
    ascii "user_id" ≠ ascii "iss" ∧ ascii "user_id" ≠ ascii "typ" ∧
    ascii "user_id" ≠ ascii "exp" ∧
    ∃ h p s payload,
      issue sampleHash testConfig 1000 (ascii "user_id") 42 = h ++ dot :: (p ++ dot :: s) ∧
      splitDot (issue sampleHash testConfig 1000 (ascii "user_id") 42) = [h, p, s] ∧
      (b64decode h).isSome ∧ (b64decode p).isSome ∧ (b64decode s).isSome ∧
      payloadOfToken (issue sampleHash testConfig 1000 (ascii "user_id") 42) = some payload ∧
      getField (ascii "iss") payload = some (.str testConfig.issuer) ∧
      getField (ascii "typ") payload = some (.str typeMarker) ∧
      getField (ascii "user_id") payload = some (.int 42) ∧
      getField (ascii "exp") payload = some (.int (1000 + testConfig.sessionLifetime)) :=
  ⟨by decide, by decide, by decide,
    issue_payload sampleHash testConfig 1000 (ascii "user_id") 42 (by decide) (by decide)
      (by decide)⟩

/-- C10 fails as stated: in the token issued for the claim name `iss` the payload field
`iss` is the claim value 7, not the configured issuer; for the name `typ` the field `typ`
is 7, not the type marker; for the name `exp` the field `exp` is the expiration 4600,
not the claim value 7. -/
theorem issue_payload_counterexample :
    ((payloadOfToken (issue sampleHash testConfig 1000 (ascii "iss") 7)).bind
        (getField (ascii "iss")) = some (.int 7) ∧
      some (Value.int 7) ≠ some (Value.str testConfig.issuer)) ∧
    ((payloadOfToken (issue sampleHash testConfig 1000 (ascii "typ") 7)).bind
        (getField (ascii "typ")) = some (.int 7) ∧
      some (Value.int 7) ≠ some (Value.str typeMarker)) ∧
    ((payloadOfToken (issue sampleHash testConfig 1000 (ascii "exp") 7)).bind
        (getField (ascii "exp")) = some (.int 4600) ∧
      some (Value.int 4600) ≠ some (Value.int 7)) := by
  decide

end TokenService

namespace StringUtils

set_option maxRecDepth 100000

/-! ## Lemmas on trim -/

theorem find_first_not_of_all (s chars : Bytes) (h : ∀ c ∈ s, c ∈ chars) :
    find_first_not_of s chars = none := by
  induction s with
  | nil => rfl
  | cons c cs ih =>
    have hc : c ∈ chars := h c (List.mem_cons_self _ _)
    simp only [find_first_not_of, hc, if_true, ih (fun x hx => h x (List.mem_cons_of_mem _ hx)),
      Option.map_none']

theorem find_first_not_of_append (l rest chars : Bytes) (x : Byte) (hl : ∀ c ∈ l, c ∈ chars)
    (hx : x ∉ chars) : find_first_not_of (l ++ x :: rest) chars = some l.length := by
  induction l with
  | nil => simp [find_first_not_of, hx]
  | cons c cs ih =>
    have hc : c ∈ chars := hl c (List.mem_cons_self _ _)
    simp only [List.cons_append, find_first_not_of, hc, if_true, List.append_eq,
      ih (fun x hx => hl x (List.mem_cons_of_mem _ hx)), Option.map_some', List.length_cons]

theorem find_last_not_of_all (s chars : Bytes) (h : ∀ c ∈ s, c ∈ chars) :
    find_last_not_of s chars = none := by
  induction s with
  | nil => rfl
  | cons c cs ih =>
    have hc : c ∈ chars := h c (List.mem_cons_self _ _)
    simp only [find_last_not_of, ih (fun x hx => h x (List.mem_cons_of_mem _ hx)), hc, if_true]

theorem find_last_not_of_append (pre r chars : Bytes) (y : Byte) (hr : ∀ c ∈ r, c ∈ chars)
    (hy : y ∉ chars) : find_last_not_of (pre ++ y :: r) chars = some pre.length := by
  induction pre with
  | nil => simp [find_last_not_of, find_last_not_of_all r chars hr, hy]
  | cons c cs ih =>
    simp only [List.cons_append, find_last_not_of, List.append_eq, ih, List.length_cons]

theorem trim_of_all (s : Bytes) (h : ∀ c ∈ s, c ∈ whitespace) : trim s = [] := by
  simp only [trim, find_first_not_of_all s whitespace h]

theorem finds_decomposed (l t r : Bytes) (x y : Byte) (hl : ∀ c ∈ l, c ∈ whitespace)
    (hr : ∀ c ∈ r, c ∈ whitespace) (hx : t.head? = some x) (hxw : x ∉ whitespace)
    (hy : t.getLast? = some y) (hyw : y ∉ whitespace) :
    find_first_not_of (l ++ t ++ r) whitespace = some l.length ∧
      find_last_not_of (l ++ t ++ r) whitespace = some (l.length + (t.length - 1)) ∧
      1 ≤ t.length := by
  obtain ⟨t1, rfl⟩ : ∃ t1, t = x :: t1 := by
    cases t with
    | nil => simp at hx
    | cons a t1 => simp at hx; exact ⟨t1, by rw [hx]⟩
  obtain ⟨pre, hpre⟩ : ∃ pre, x :: t1 = pre ++ [y] := by
    rcases List.eq_nil_or_concat (x :: t1) with h | ⟨pre, z, h⟩
    · cases h
    · rw [h] at hy
      simp at hy
      exact ⟨pre, by rw [h, hy]; simp⟩
  have e1 : l ++ x :: t1 ++ r = l ++ x :: (t1 ++ r) := by simp
  have e2 : l ++ x :: t1 ++ r = (l ++ pre) ++ y :: r := by rw [hpre]; simp
  have hf := find_first_not_of_append l (t1 ++ r) whitespace x hl hxw
  have hg := find_last_not_of_append (l ++ pre) r whitespace y hr hyw
  rw [← e1] at hf
  rw [← e2] at hg
  have hlen : (x :: t1).length = pre.length + 1 := by rw [hpre]; simp
  refine ⟨hf, ?_, by simp⟩
  rw [hg, hlen, List.length_append]
  simp

theorem trim_decomposed (l t r : Bytes) (hl : ∀ c ∈ l, c ∈ whitespace)
    (hr : ∀ c ∈ r, c ∈ whitespace) (ht : Trimmed t) : trim (l ++ t ++ r) = t := by
  rcases ht with rfl | ⟨⟨x, hx, hxw⟩, ⟨y, hy, hyw⟩⟩
  · apply trim_of_all
    intro c hc
    simp only [List.append_nil, List.mem_append] at hc
    exact hc.elim (hl c) (hr c)
  · obtain ⟨hf, hg, hlen⟩ := finds_decomposed l t r x y hl hr hx hxw hy hyw
    simp only [trim, hf, hg, substr]
    rw [show l.length + (t.length - 1) - l.length + 1 = t.length by omega, List.append_assoc,
      List.drop_left, List.take_left]

theorem exists_decomposition (s : Bytes) :
    ∃ l t r, s = l ++ t ++ r ∧ (∀ c ∈ l, c ∈ whitespace) ∧ (∀ c ∈ r, c ∈ whitespace) ∧
      Trimmed t := by
  induction s with
  | nil => exact ⟨[], [], [], rfl, by simp, by simp, Or.inl rfl⟩
  | cons c cs ih =>
    obtain ⟨l, t, r, hs, hl, hr, ht⟩ := ih
    by_cases hc : c ∈ whitespace
    · refine ⟨c :: l, t, r, by rw [hs]; simp, ?_, hr, ht⟩
      intro x hx
      rcases List.mem_cons.mp hx with h | h
      · rw [h]; exact hc
      · exact hl x h
    · rcases ht with rfl | ⟨⟨x, hx, hxw⟩, ⟨y, hy, hyw⟩⟩
      · refine ⟨[], [c], l ++ r, by rw [hs]; simp, by simp, ?_, Or.inr ⟨⟨c, rfl, hc⟩, ⟨c, rfl, hc⟩⟩⟩
        intro z hz
        exact (List.mem_append.mp hz).elim (hl z) (hr z)
      · refine ⟨[], c :: (l ++ t), r, by rw [hs]; simp, by simp, hr,
          Or.inr ⟨⟨c, rfl, hc⟩, ⟨y, ?_, hyw⟩⟩⟩
        cases t with
        | nil => simp at hx
        | cons a t1 =>
          rw [show c :: (l ++ a :: t1) = (c :: l) ++ (a :: t1) by simp, List.getLast?_append, hy]
          rfl

theorem find_last_ge_first (s : Bytes) (i : Nat)
    (h : find_first_not_of s whitespace = some i) :
    ∃ j, find_last_not_of s whitespace = some j ∧ i ≤ j := by
  obtain ⟨l, t, r, hs, hl, hr, ht⟩ := exists_decomposition s
  rcases ht with rfl | ⟨⟨x, hx, hxw⟩, ⟨y, hy, hyw⟩⟩
  · have hall : ∀ c ∈ s, c ∈ whitespace := by
      intro c hc
      rw [hs] at hc
      simp only [List.append_nil, List.mem_append] at hc
      exact hc.elim (hl c) (hr c)
    rw [find_first_not_of_all s whitespace hall] at h
    cases h
  · obtain ⟨hf, hg, -⟩ := finds_decomposed l t r x y hl hr hx hxw hy hyw
    rw [← hs] at hf hg
    rw [hf] at h
    injection h with h
    exact ⟨_, hg, by omega⟩

/-- C20: `trim s` is the only `t` with `s = l ++ t ++ r` where `l` and `r` are made of
the six whitespace characters and `t` is empty or begins and ends with another
character; `trim` gives the empty string on a string of whitespace, and
`trim (trim s) = trim s`. -/
theorem trim_characterization (s : Bytes) :
    (∃ l r, s = l ++ trim s ++ r ∧ (∀ c ∈ l, c ∈ whitespace) ∧ (∀ c ∈ r, c ∈ whitespace) ∧
      Trimmed (trim s)) ∧
    (∀ l t r, s = l ++ t ++ r → (∀ c ∈ l, c ∈ whitespace) → (∀ c ∈ r, c ∈ whitespace) →
      Trimmed t → t = trim s) ∧
    ((∀ c ∈ s, c ∈ whitespace) → trim s = []) ∧
    trim (trim s) = trim s := by
  obtain ⟨l, t, r, hs, hl, hr, ht⟩ := exists_decomposition s
  have htrim : trim s = t := by rw [hs]; exact trim_decomposed l t r hl hr ht
  refine ⟨⟨l, r, by rw [htrim]; exact hs, hl, hr, by rw [htrim]; exact ht⟩, ?_, trim_of_all s, ?_⟩
  · intro l1 t1 r1 hs1 hl1 hr1 ht1
    rw [hs1]
    exact (trim_decomposed l1 t1 r1 hl1 hr1 ht1).symm
  · rw [htrim]
    have := trim_decomposed [] t [] (by simp) (by simp) ht
    simpa using this

/-! ## Lemmas on split and join -/

theorem fields_eq_nil (d : Byte) (s : Bytes) : fields d s = [] ↔ s = [] := by
  cases s with
  | nil => simp [fields]
  | cons c cs =>
    simp only [fields]
    split
    · simp
    · split <;> simp

theorem getline_none (d : Byte) (s : Bytes) : getline d s = none ↔ s = [] := by
  cases s with
  | nil => simp [getline]
  | cons c cs =>
    simp only [getline]
    split
    · simp
    · split <;> simp

theorem getline_some (d : Byte) (s token rest : Bytes) (h : getline d s = some (token, rest)) :
    fields d s = token :: fields d rest ∧ rest.length < s.length := by
  induction s generalizing token with
  | nil => simp [getline] at h
  | cons c cs ih =>
    simp only [getline] at h
    by_cases hc : c = d
    · simp only [hc, if_true, Option.some.injEq, Prod.mk.injEq] at h
      obtain ⟨rfl, rfl⟩ := h
      simp [fields, hc]
    · simp only [hc, if_false] at h
      cases hg : getline d cs with
      | none =>
        rw [hg] at h
        simp only [Option.some.injEq, Prod.mk.injEq] at h
        obtain ⟨rfl, rfl⟩ := h
        have hcs : cs = [] := (getline_none d cs).mp hg
        subst hcs
        simp [fields, hc]
      | some tr =>
        obtain ⟨t1, r1⟩ := tr
        rw [hg] at h
        simp only [Option.some.injEq, Prod.mk.injEq] at h
        obtain ⟨rfl, rfl⟩ := h
        obtain ⟨hf, hl⟩ := ih t1 hg
        simp only [fields, hc, if_false, hf, List.length_cons]
        exact ⟨trivial, by omega⟩

theorem splitLoop_eq_fields (d : Byte) (fuel : Nat) (s : Bytes) (tokens : List Bytes)
    (h : s.length < fuel) : splitLoop d fuel s tokens = some (tokens ++ fields d s) := by
  induction fuel generalizing s tokens with
  | zero => omega
  | succ n ih =>
    simp only [splitLoop]
    cases hg : getline d s with
    | none =>
      have hs : s = [] := (getline_none d s).mp hg
      subst hs
      simp [fields]
    | some tr =>
      obtain ⟨t1, r1⟩ := tr
      obtain ⟨hf, hl⟩ := getline_some d s t1 r1 hg
      simp only
      rw [ih r1 _ (by omega), hf]
      simp

theorem split_eq_fields (s : Bytes) (d : Byte) : split s d = some (fields d s) := by
  simp only [split]
  rw [splitLoop_eq_fields d _ s [] (by omega)]
  simp

theorem foldl_join_append (delim x y : Bytes) (rest : List Bytes) :
    rest.foldl (fun result s => result ++ (delim ++ s)) (x ++ y) =
      x ++ rest.foldl (fun result s => result ++ (delim ++ s)) y := by
  induction rest generalizing y with
  | nil => rfl
  | cons a as ih =>
    simp only [List.foldl_cons, List.append_assoc]
    exact ih _

theorem join_cons_cons (a b : Bytes) (rest : List Bytes) (delim : Bytes) :
    join (a :: b :: rest) delim = a ++ (delim ++ join (b :: rest) delim) := by
  simp only [join, List.foldl_cons]
  rw [foldl_join_append, foldl_join_append]

theorem join_cons_head (c : Byte) (a : Bytes) (rest : List Bytes) (delim : Bytes) :
    join ((c :: a) :: rest) delim = c :: join (a :: rest) delim := by
  simp only [join]
  exact foldl_join_append delim [c] a rest

theorem fields_cons_self (d : Byte) (cs : Bytes) : fields d (d :: cs) = [] :: fields d cs := by
  simp [fields]

theorem fields_cons_ne_nil (d c : Byte) (h : c ≠ d) : fields d [c] = [[c]] := by
  simp [fields, h]

theorem fields_cons_ne (d c : Byte) (cs t : Bytes) (ts : List Bytes) (h : c ≠ d)
    (hf : fields d cs = t :: ts) : fields d (c :: cs) = (c :: t) :: ts := by
  simp only [fields, h, if_false, hf]

theorem join_fields (d : Byte) (s : Bytes) :
    join (fields d s) [d] = if s.getLast? = some d then s.dropLast else s := by
  induction s with
  | nil => simp [fields, join]
  | cons c cs ih =>
    cases hf : fields d cs with
    | nil =>
      have hcs : cs = [] := (fields_eq_nil d cs).mp hf
      subst hcs
      by_cases hc : c = d
      · simp [fields, join, hc]
      · simp [fields, join, hc]
    | cons t ts =>
      obtain ⟨b, bs, rfl⟩ : ∃ b bs, cs = b :: bs := by
        cases cs with
        | nil => simp [fields] at hf
        | cons b bs => exact ⟨b, bs, rfl⟩
      have hlast : (c :: b :: bs).getLast? = (b :: bs).getLast? := by
        simp [List.getLast?_cons_cons]
      have hdrop : (c :: b :: bs).dropLast = c :: (b :: bs).dropLast := by simp
      rw [hf] at ih
      by_cases hc : c = d
      · subst hc
        rw [fields_cons_self, hf, join_cons_cons, ih, hlast, hdrop]
        split <;> simp
      · rw [fields_cons_ne d c _ t ts hc hf, join_cons_head, ih, hlast, hdrop]
        split <;> simp

theorem not_mem_fields (d : Byte) (s : Bytes) : ∀ t ∈ fields d s, d ∉ t := by
  induction s with
  | nil => simp [fields]
  | cons c cs ih =>
    intro t ht
    simp only [fields] at ht
    by_cases hc : c = d
    · simp only [hc, if_true, List.mem_cons] at ht
      rcases ht with rfl | ht
      · simp
      · exact ih t ht
    · simp only [hc, if_false] at ht
      cases hf : fields d cs with
      | nil =>
        rw [hf] at ht
        simp only [List.mem_singleton] at ht
        subst ht
        simp only [List.mem_singleton]
        exact fun h => hc h.symm
      | cons u us =>
        rw [hf] at ht ih
        simp only [List.mem_cons] at ht
        rcases ht with rfl | ht
        · have hu := ih u (List.mem_cons_self _ _)
          simp only [List.mem_cons, not_or]
          exact ⟨fun h => hc h.symm, hu⟩
        · exact ih t (List.mem_cons_of_mem _ ht)

theorem length_fields (d : Byte) (s : Bytes) :
    (fields d s).length = s.count d + if s ≠ [] ∧ s.getLast? ≠ some d then 1 else 0 := by
  induction s with
  | nil => simp [fields]
  | cons c cs ih =>
    cases hf : fields d cs with
    | nil =>
      have hcs : cs = [] := (fields_eq_nil d cs).mp hf
      subst hcs
      by_cases hc : c = d
      · simp [fields, hc]
      · have hc2 : ¬ d = c := fun h => hc h.symm
        simp [fields, hc, hc2, List.count_cons]
    | cons t ts =>
      obtain ⟨b, bs, rfl⟩ : ∃ b bs, cs = b :: bs := by
        cases cs with
        | nil => simp [fields] at hf
        | cons b bs => exact ⟨b, bs, rfl⟩
      have hlast : (c :: b :: bs).getLast? = (b :: bs).getLast? := by
        simp [List.getLast?_cons_cons]
      simp only [ne_eq, not_false_eq_true, true_and, reduceCtorEq] at ih ⊢
      rw [hlast]
      rw [hf] at ih
      simp only [List.length_cons] at ih
      by_cases hc : c = d
      · subst hc
        rw [fields_cons_self, hf, List.count_cons_self]
        simp only [List.length_cons]
        omega
      · have hc2 : ¬ (c == d) = true := by simpa using hc
        rw [fields_cons_ne d c _ t ts hc hf, List.count_cons, if_neg hc2]
        simp only [List.length_cons]
        omega

/-- C17: `join (split s d) d` is `s` when `s` does not end with `d` (the empty string
included) and `s` without its last character when `s` ends with `d`. -/
theorem split_join_roundtrip (s : Bytes) (d : Byte) :
    ∃ tokens, split s d = some tokens ∧
      (s.getLast? ≠ some d → join tokens [d] = s) ∧
      (s.getLast? = some d → join tokens [d] = s.dropLast) := by
  refine ⟨fields d s, split_eq_fields s d, ?_, ?_⟩
  · intro h
    rw [join_fields, if_neg h]
  · intro h
    rw [join_fields, if_pos h]

/-- C18: `split s d` returns tokens without `d`; their number is the number of
occurrences of `d` in `s`, plus one exactly when `s` is not empty and does not end with
`d`.  So the empty string gives no token, "a," gives ["a"] and ",a" gives ["", "a"]. -/
theorem split_shape (s : Bytes) (d : Byte) :
    (∃ tokens, split s d = some tokens ∧ (∀ t ∈ tokens, d ∉ t) ∧
      tokens.length = s.count d + if s ≠ [] ∧ s.getLast? ≠ some d then 1 else 0) ∧
    split [] d = some [] ∧
    split (ascii "a,") 44 = some [ascii "a"] ∧
    split (ascii ",a") 44 = some [[], ascii "a"] := by
  refine ⟨⟨fields d s, split_eq_fields s d, not_mem_fields d s, length_fields d s⟩, rfl, ?_, ?_⟩
  · decide
  · decide

/-! ## Lemmas on replace -/

theorem startsWith_iff (s pat : Bytes) : startsWith s pat = true ↔ ∃ post, s = pat ++ post := by
  induction pat generalizing s with
  | nil => simp [startsWith]
  | cons p pat ih =>
    cases s with
    | nil => simp [startsWith]
    | cons c s =>
      simp only [startsWith, Bool.and_eq_true, beq_iff_eq, ih, List.cons_append, List.cons.injEq]
      constructor
      · rintro ⟨rfl, post, rfl⟩
        exact ⟨post, rfl, rfl⟩
      · rintro ⟨post, rfl, rfl⟩
        exact ⟨rfl, post, rfl⟩

theorem replaceScan_fuel_irrel (fromStr toStr : Bytes) (hne : fromStr ≠ []) (fuel1 fuel2 : Nat)
    (s : Bytes) (h1 : s.length ≤ fuel1) (h2 : s.length ≤ fuel2) :
    replaceScan fromStr toStr fuel1 s = replaceScan fromStr toStr fuel2 s := by
  induction fuel1 generalizing fuel2 s with
  | zero =>
    have hs : s = [] := List.length_eq_zero.mp (by omega)
    subst hs
    cases fuel2 <;> rfl
  | succ n ih =>
    cases s with
    | nil => cases fuel2 <;> rfl
    | cons c s =>
      cases fuel2 with
      | zero => simp at h2
      | succ m =>
        simp only [List.length_cons] at h1 h2
        obtain ⟨p, pat, rfl⟩ : ∃ p pat, fromStr = p :: pat := by
          cases fromStr with
          | nil => exact absurd rfl hne
          | cons p pat => exact ⟨p, pat, rfl⟩
        have hd : ((c :: s).drop (p :: pat).length).length ≤ s.length := by
          simp only [List.length_cons, List.drop_succ_cons, List.length_drop]
          omega
        simp only [replaceScan]
        split
        · rw [ih m _ (by omega) (by omega)]
        · rw [ih m s (by omega) (by omega)]

theorem scanSpec_nil (fromStr toStr : Bytes) : scanSpec fromStr toStr [] = [] := rfl

theorem scanSpec_match (fromStr toStr s : Bytes) (hne : fromStr ≠ [])
    (h : startsWith s fromStr = true) :
    scanSpec fromStr toStr s = toStr ++ scanSpec fromStr toStr (s.drop fromStr.length) := by
  cases s with
  | nil =>
    cases fromStr with
    | nil => exact absurd rfl hne
    | cons p pat => simp [startsWith] at h
  | cons c s =>
    have hd : ((c :: s).drop fromStr.length).length ≤ s.length := by
      cases fromStr with
      | nil => exact absurd rfl hne
      | cons p pat =>
        simp only [List.length_cons, List.drop_succ_cons, List.length_drop]
        omega
    simp only [scanSpec, List.length_cons, replaceScan, h, if_true]
    rw [replaceScan_fuel_irrel fromStr toStr hne s.length _ _ hd (le_refl _)]

theorem scanSpec_skip (fromStr toStr s : Bytes) (c : Byte)
    (h : startsWith (c :: s) fromStr = false) :
    scanSpec fromStr toStr (c :: s) = c :: scanSpec fromStr toStr s := by
  simp [scanSpec, replaceScan, h]

theorem scanSpec_append (fromStr toStr post : Bytes) (hne : fromStr ≠ []) :
    scanSpec fromStr toStr (fromStr ++ post) = toStr ++ scanSpec fromStr toStr post := by
  rw [scanSpec_match fromStr toStr _ hne ((startsWith_iff _ _).mpr ⟨post, rfl⟩), List.drop_left]

theorem findAt_none (fromStr toStr : Bytes) (rest : Bytes) (p : Nat)
    (h : findAt fromStr rest p = none) : scanSpec fromStr toStr rest = rest := by
  induction rest generalizing p with
  | nil => rfl
  | cons c cs ih =>
    simp only [findAt] at h
    split at h
    · cases h
    · rename_i hs
      have hs2 : startsWith (c :: cs) fromStr = false := by simpa using hs
      rw [scanSpec_skip _ _ _ _ hs2, ih (p + 1) h]

theorem findAt_some (fromStr toStr : Bytes) (hne : fromStr ≠ []) (rest : Bytes) (p q : Nat)
    (h : findAt fromStr rest p = some q) :
    ∃ pre post, rest = pre ++ fromStr ++ post ∧ q = p + pre.length ∧
      scanSpec fromStr toStr rest = pre ++ toStr ++ scanSpec fromStr toStr post := by
  induction rest generalizing p with
  | nil => simp [findAt, hne] at h
  | cons c cs ih =>
    simp only [findAt] at h
    split at h
    · rename_i hs
      injection h with h
      obtain ⟨post, hpost⟩ := (startsWith_iff _ _).mp hs
      refine ⟨[], post, by simpa using hpost, by simp [h], ?_⟩
      rw [hpost, scanSpec_append _ _ _ hne]
      simp
    · rename_i hs
      have hs2 : startsWith (c :: cs) fromStr = false := by simpa using hs
      obtain ⟨pre, post, hrest, hq, hscan⟩ := ih (p + 1) h
      refine ⟨c :: pre, post, by simp [hrest], by simp [hq]; omega, ?_⟩
      rw [scanSpec_skip _ _ _ _ hs2, hscan]
      simp

theorem find_append (done rest pat : Bytes) :
    find (done ++ rest) pat done.length = findAt pat rest done.length := by
  simp [find]

theorem replaceAt_append (done pre pat post toStr : Bytes) :
    replaceAt (done ++ (pre ++ pat ++ post)) (done.length + pre.length) pat.length toStr =
      (done ++ pre ++ toStr) ++ post := by
  have e1 : done ++ (pre ++ pat ++ post) = (done ++ pre) ++ (pat ++ post) := by simp
  have e2 : done ++ (pre ++ pat ++ post) = (done ++ pre ++ pat) ++ post := by simp
  have l1 : done.length + pre.length = (done ++ pre).length := by simp
  have l2 : done.length + pre.length + pat.length = (done ++ pre ++ pat).length := by
    simp only [List.length_append]
  simp only [replaceAt]
  rw [l2]
  nth_rewrite 2 [e2]
  rw [List.drop_left, l1, e1, List.take_left]

theorem replaceLoop_eq_scan (fromStr toStr : Bytes) (hne : fromStr ≠ []) (fuel : Nat)
    (done rest : Bytes) (h : rest.length < fuel) :
    replaceLoop fromStr toStr fuel (done ++ rest) done.length =
      some (done ++ scanSpec fromStr toStr rest) := by
  induction fuel generalizing done rest with
  | zero => omega
  | succ n ih =>
    simp only [replaceLoop, find_append]
    cases hf : findAt fromStr rest done.length with
    | none => simp only [findAt_none fromStr toStr rest _ hf]
    | some q =>
      obtain ⟨pre, post, hrest, hq, hscan⟩ := findAt_some fromStr toStr hne rest _ q hf
      subst hrest
      have hpat : 1 ≤ fromStr.length := List.length_pos.mpr hne
      have hlen : post.length < n := by
        simp only [List.length_append] at h
        omega
      have hpos : q + toStr.length = (done ++ pre ++ toStr).length := by
        simp only [List.length_append, hq]
      simp only
      rw [hq, replaceAt_append, ← hq, hpos, ih _ post hlen, hscan]
      simp

theorem find_some_bounds (result fromStr : Bytes) (hne : fromStr ≠ []) (pos p : Nat)
    (h : find result fromStr pos = some p) :
    pos ≤ p ∧ p + fromStr.length ≤ result.length := by
  simp only [find] at h
  split at h
  · cases h
  · rename_i hpos
    obtain ⟨pre, post, hrest, hq, -⟩ := findAt_some fromStr [] hne _ pos p h
    have hl := congrArg List.length hrest
    simp only [List.length_drop, List.length_append] at hl
    omega

theorem length_replaceAt (s str : Bytes) (pos len : Nat) (h : pos + len ≤ s.length) :
    (replaceAt s pos len str).length = s.length - len + str.length := by
  simp only [replaceAt, List.length_append, List.length_take, List.length_drop]
  omega

theorem replaceLoop_empty (toStr : Bytes) (fuel : Nat) (result : Bytes) (pos : Nat)
    (h : pos ≤ result.length) : replaceLoop [] toStr fuel result pos = none := by
  induction fuel generalizing result pos with
  | zero => rfl
  | succ n ih =>
    have hfind : find result [] pos = some pos := by
      simp only [find, if_neg (by omega : ¬ result.length < pos)]
      cases result.drop pos <;> simp [findAt, startsWith]
    simp only [replaceLoop, hfind]
    apply ih
    simp only [replaceAt, List.length_nil, Nat.add_zero, List.length_append, List.length_take,
      List.length_drop]
    omega

/-- C15: for a non-empty `fromStr`, every iteration of the loop of `replace` strictly
decreases the number of characters of `result` at or after the search position, and the
loop ends: `replace` returns a result, the same for every larger fuel.  With an empty
`fromStr` the loop never ends, whatever the fuel. -/
theorem replace_terminates (str fromStr toStr : Bytes) (hne : fromStr ≠ []) :
    (∀ result pos p, find result fromStr pos = some p →
      (replaceAt result p fromStr.length toStr).length - (p + toStr.length) <
        result.length - pos) ∧
    (∃ r, replace str fromStr toStr = some r) ∧
    (∀ fuel, str.length < fuel →
      replaceLoop fromStr toStr fuel str 0 = replace str fromStr toStr) ∧
    (∀ fuel, replaceLoop [] toStr fuel str 0 = none) := by
  have hpat : 1 ≤ fromStr.length := List.length_pos.mpr hne
  refine ⟨?_, ?_, ?_, ?_⟩
  · intro result pos p hf
    obtain ⟨h1, h2⟩ := find_some_bounds result fromStr hne pos p hf
    rw [length_replaceAt result toStr p fromStr.length h2]
    omega
  · exact ⟨_, replaceLoop_eq_scan fromStr toStr hne _ [] str (by omega)⟩
  · intro fuel hfuel
    have h1 := replaceLoop_eq_scan fromStr toStr hne fuel [] str hfuel
    have h2 := replaceLoop_eq_scan fromStr toStr hne (str.length + 1) [] str (by omega)
    simp only [List.nil_append, List.length_nil] at h1 h2
    rw [replace, h1, h2]
  · intro fuel
    exact replaceLoop_empty toStr fuel str 0 (by omega)

theorem replace_terminates_witness :
    ascii "ab" ≠ [] ∧
    (∀ result pos p, find result (ascii "ab") pos = some p →
      (replaceAt result p (ascii "ab").length (ascii "b")).length - (p + (ascii "b").length) <
        result.length - pos) ∧
    (∃ r, replace (ascii "aab") (ascii "ab") (ascii "b") = some r) ∧
    (∀ fuel, (ascii "aab").length < fuel →
      replaceLoop (ascii "ab") (ascii "b") fuel (ascii "aab") 0 =
        replace (ascii "aab") (ascii "ab") (ascii "b")) ∧
    (∀ fuel, replaceLoop [] (ascii "b") fuel (ascii "aab") 0 = none) :=
  ⟨by decide, replace_terminates (ascii "aab") (ascii "ab") (ascii "b") (by decide)⟩

/-- C16: for a non-empty `fromStr`, `replace` returns the single left-to-right scan `R`
of the original string, where `R` of the empty string is empty, `R s` is `toStr` followed
by `R` of `s` without its first `fromStr.length` characters when `s` begins with
`fromStr`, and `R (c :: s)` is `c` followed by `R s` otherwise.  Inserted text is not
scanned again: replace("a", "a", "aa") is "aa", and replace("aab", "ab", "b") is "ab",
which still holds `fromStr`. -/
theorem replace_eq_scan (str fromStr toStr : Bytes) (hne : fromStr ≠ []) :
    replace str fromStr toStr = some (scanSpec fromStr toStr str) ∧
    scanSpec fromStr toStr [] = [] ∧
    (∀ s, startsWith s fromStr = true →
      scanSpec fromStr toStr s = toStr ++ scanSpec fromStr toStr (s.drop fromStr.length)) ∧
    (∀ c s, startsWith (c :: s) fromStr = false →
      scanSpec fromStr toStr (c :: s) = c :: scanSpec fromStr toStr s) ∧
    replace (ascii "a") (ascii "a") (ascii "aa") = some (ascii "aa") ∧
    replace (ascii "aab") (ascii "ab") (ascii "b") = some (ascii "ab") ∧
    find (ascii "ab") (ascii "ab") 0 = some 0 := by
  refine ⟨?_, rfl, ?_, ?_, by decide, by decide, by decide⟩
  · have h := replaceLoop_eq_scan fromStr toStr hne (str.length + 1) [] str (by omega)
    simpa [replace] using h
  · intro s hs
    exact scanSpec_match fromStr toStr s hne hs
  · intro c s hs
    exact scanSpec_skip fromStr toStr s c hs

theorem replace_eq_scan_witness :
    ascii "ab" ≠ [] ∧
    replace (ascii "aab") (ascii "ab") (ascii "b") =
      some (scanSpec (ascii "ab") (ascii "b") (ascii "aab")) ∧
    scanSpec (ascii "ab") (ascii "b") [] = [] ∧
    (∀ s, startsWith s (ascii "ab") = true →
      scanSpec (ascii "ab") (ascii "b") s =
        ascii "b" ++ scanSpec (ascii "ab") (ascii "b") (s.drop (ascii "ab").length)) ∧
    (∀ c s, startsWith (c :: s) (ascii "ab") = false →
      scanSpec (ascii "ab") (ascii "b") (c :: s) = c :: scanSpec (ascii "ab") (ascii "b") s) ∧
    replace (ascii "a") (ascii "a") (ascii "aa") = some (ascii "aa") ∧
    replace (ascii "aab") (ascii "ab") (ascii "b") = some (ascii "ab") ∧
    find (ascii "ab") (ascii "ab") 0 = some 0 :=
  ⟨by decide, replace_eq_scan (ascii "aab") (ascii "ab") (ascii "b") (by decide)⟩

/-! ## Lemmas on isValidEmail -/

theorem mem_anyOf (l : List Byte) (x : Bytes) :
    x ∈ (anyOf l).matches' ↔ ∃ c ∈ l, x = [c] := by
  induction l with
  | nil => simp [anyOf, Language.not_mem_zero]
  | cons a as ih =>
    simp only [anyOf, RegularExpression.matches'_add, RegularExpression.matches'_char,
      Language.mem_add, ih, List.mem_cons]
    constructor
    · rintro (h | ⟨c, hc, rfl⟩)
      · exact ⟨a, Or.inl rfl, h⟩
      · exact ⟨c, Or.inr hc, rfl⟩
    · rintro ⟨c, rfl | hc, rfl⟩
      · exact Or.inl rfl
      · exact Or.inr ⟨c, hc, rfl⟩

theorem mem_word (x : Bytes) : x ∈ word.matches' ↔ ∃ c, wordChar c = true ∧ x = [c] := by
  simp only [word, mem_anyOf, List.mem_filter, List.mem_finRange, true_and]

/-- The language of `\w+`: the non-empty strings of word characters. -/
theorem mem_words (x : Bytes) :
    x ∈ (oneOrMore word).matches' ↔ x ≠ [] ∧ ∀ c ∈ x, wordChar c = true := by
  simp only [oneOrMore, RegularExpression.matches'_mul, RegularExpression.matches'_star,
    Language.mem_mul, Language.mem_kstar, mem_word]
  constructor
  · rintro ⟨a, ⟨c, hc, rfl⟩, b, ⟨L, rfl, hL⟩, rfl⟩
    refine ⟨by simp, ?_⟩
    intro z hz
    simp only [List.singleton_append, List.mem_cons, List.mem_flatten] at hz
    rcases hz with rfl | ⟨y, hy, hzy⟩
    · exact hc
    · obtain ⟨c1, hc1, rfl⟩ := hL y hy
      simp only [List.mem_singleton] at hzy
      rw [hzy]
      exact hc1
  · rintro ⟨hne, hall⟩
    cases x with
    | nil => exact absurd rfl hne
    | cons c cs =>
      refine ⟨[c], ⟨c, hall c (List.mem_cons_self _ _), rfl⟩, cs,
        ⟨cs.map (fun z => [z]), ?_, ?_⟩, rfl⟩
      · clear hall hne
        induction cs with
        | nil => rfl
        | cons d ds ih => simp [← ih]
      · intro y hy
        simp only [List.mem_map] at hy
        obtain ⟨z, hz, rfl⟩ := hy
        exact ⟨z, hall z (List.mem_cons_of_mem _ hz), rfl⟩

/-- The language of the group `(\.?\w+)`: a word, or a dot and a word. -/
theorem mem_group (x : Bytes) :
    x ∈ dotWordGroup.matches' ↔
      x ∈ (oneOrMore word).matches' ∨ ∃ w ∈ (oneOrMore word).matches', x = 46 :: w := by
  simp only [dotWordGroup, optional, RegularExpression.matches'_mul,
    RegularExpression.matches'_add, RegularExpression.matches'_epsilon,
    RegularExpression.matches'_char, Language.mem_mul, Language.mem_add, Language.mem_one]
  constructor
  · rintro ⟨a, ha | ha, b, hb, rfl⟩
    · subst ha
      exact Or.inl hb
    · have ha2 : a = [46] := ha
      subst ha2
      exact Or.inr ⟨b, hb, rfl⟩
  · rintro (h | ⟨w, hw, rfl⟩)
    · exact ⟨[], Or.inl rfl, x, h, rfl⟩
    · exact ⟨[46], Or.inr rfl, w, hw, rfl⟩

theorem wordChar_dot : wordChar 46 = false := by decide

theorem wordChar_at : wordChar 64 = false := by decide

theorem scan_words (w rest : Bytes) (b : Bool) (hw : w ∈ (oneOrMore word).matches') :
    scanDotWord b (w ++ rest) = scanDotWord true rest := by
  obtain ⟨hne, hall⟩ := (mem_words w).mp hw
  induction w generalizing b with
  | nil => exact absurd rfl hne
  | cons c cs ih =>
    have hc : wordChar c = true := hall c (List.mem_cons_self _ _)
    cases cs with
    | nil => simp [scanDotWord, hc]
    | cons d ds =>
      simp only [List.cons_append, scanDotWord, hc, if_true]
      have hds : d :: ds ∈ (oneOrMore word).matches' :=
        (mem_words _).mpr ⟨by simp, fun z hz => hall z (List.mem_cons_of_mem _ hz)⟩
      exact ih true hds (by simp) (fun z hz => hall z (List.mem_cons_of_mem _ hz))

theorem scan_group (g rest : Bytes) (hg : g ∈ dotWordGroup.matches') :
    scanDotWord true (g ++ rest) = scanDotWord true rest := by
  rcases (mem_group g).mp hg with h | ⟨w, hw, rfl⟩
  · exact scan_words g rest true h
  · simp only [List.cons_append, scanDotWord, wordChar_dot]
    simp [scan_words w rest false hw]

theorem scan_groups (x rest : Bytes) (hx : x ∈ KStar.kstar dotWordGroup.matches') :
    scanDotWord true (x ++ rest) = scanDotWord true rest := by
  obtain ⟨L, rfl, hL⟩ := Language.mem_kstar.mp hx
  induction L with
  | nil => rfl
  | cons g gs ih =>
    simp only [List.flatten_cons, List.append_assoc]
    rw [scan_group g _ (hL g (List.mem_cons_self _ _))]
    exact ih (fun y hy => hL y (List.mem_cons_of_mem _ hy))
      (Language.join_mem_kstar fun y hy => hL y (List.mem_cons_of_mem _ hy))

theorem cons_mem_kstar (g x : Bytes) (hg : g ∈ dotWordGroup.matches')
    (hx : x ∈ KStar.kstar dotWordGroup.matches') :
    g ++ x ∈ KStar.kstar dotWordGroup.matches' := by
  obtain ⟨L, rfl, hL⟩ := Language.mem_kstar.mp hx
  refine Language.mem_kstar.mpr ⟨g :: L, by simp, ?_⟩
  intro y hy
  rcases List.mem_cons.mp hy with rfl | hy
  · exact hg
  · exact hL y hy

theorem mem_of_scan (s : Bytes) :
    (scanDotWord true s = true → s ∈ KStar.kstar dotWordGroup.matches') ∧
    (scanDotWord false s = true →
      s ∈ (oneOrMore word).matches' * KStar.kstar dotWordGroup.matches') := by
  induction s with
  | nil =>
    exact ⟨fun _ => Language.nil_mem_kstar _, fun h => by simp [scanDotWord] at h⟩
  | cons c cs ih =>
    have hsingle : wordChar c = true → [c] ∈ (oneOrMore word).matches' := fun hc =>
      (mem_words [c]).mpr ⟨by simp, by simpa using hc⟩
    constructor
    · intro h
      simp only [scanDotWord] at h
      split at h
      · rename_i hc
        exact cons_mem_kstar [c] cs ((mem_group _).mpr (Or.inl (hsingle hc))) (ih.1 h)
      · simp only [Bool.and_true, Bool.and_eq_true, beq_iff_eq] at h
        obtain ⟨rfl, h2⟩ := h
        obtain ⟨w, hw, r, hr, rfl⟩ := Language.mem_mul.mp (ih.2 h2)
        have := cons_mem_kstar (46 :: w) r ((mem_group _).mpr (Or.inr ⟨w, hw, rfl⟩)) hr
        simpa using this
    · intro h
      simp only [scanDotWord] at h
      split at h
      · rename_i hc
        exact Language.mem_mul.mpr ⟨[c], hsingle hc, cs, ih.1 h, rfl⟩
      · simp at h

/-- The language of `(\w+)(\.?\w+)*` is what `scanDotWord` accepts. -/
theorem mem_local (s : Bytes) :
    s ∈ (oneOrMore word).matches' * KStar.kstar dotWordGroup.matches' ↔
      scanDotWord false s = true := by
  constructor
  · intro h
    obtain ⟨w, hw, r, hr, rfl⟩ := Language.mem_mul.mp h
    rw [scan_words w r false hw]
    have := scan_groups r [] hr
    simpa [scanDotWord] using this
  · exact (mem_of_scan s).2

theorem group_ne_nil (g : Bytes) (hg : g ∈ dotWordGroup.matches') : 1 ≤ g.length := by
  rcases (mem_group g).mp hg with h | ⟨w, hw, rfl⟩
  · have := ((mem_words g).mp h).1
    cases g with
    | nil => exact absurd rfl this
    | cons a as => simp
  · simp

/-- The language of `(\w+)(\.?\w+)+` is what `scanDotWord` accepts, from length 2. -/
theorem mem_domain (s : Bytes) :
    s ∈ (oneOrMore word).matches' *
        (dotWordGroup.matches' * KStar.kstar dotWordGroup.matches') ↔
      scanDotWord false s = true ∧ 2 ≤ s.length := by
  constructor
  · intro h
    obtain ⟨w, hw, r, hr, rfl⟩ := Language.mem_mul.mp h
    obtain ⟨g, hg, r2, hr2, rfl⟩ := Language.mem_mul.mp hr
    refine ⟨(mem_local _).mp (Language.mem_mul.mpr ⟨w, hw, _, cons_mem_kstar g r2 hg hr2, rfl⟩),
      ?_⟩
    have h1 := group_ne_nil g hg
    have h2 : 1 ≤ w.length := by
      have := ((mem_words w).mp hw).1
      cases w with
      | nil => exact absurd rfl this
      | cons a as => simp
    simp only [List.length_append]
    omega
  · rintro ⟨h, hlen⟩
    cases s with
    | nil => simp at hlen
    | cons c cs =>
      simp only [scanDotWord] at h
      split at h
      · rename_i hc
        obtain ⟨L, hcs, hL⟩ := Language.mem_kstar.mp ((mem_of_scan cs).1 h)
        cases L with
        | nil =>
          subst hcs
          simp at hlen
        | cons g gs =>
          refine Language.mem_mul.mpr ⟨[c], (mem_words [c]).mpr ⟨by simp, by simpa using hc⟩,
            cs, ?_, rfl⟩
          refine Language.mem_mul.mpr ⟨g, hL g (List.mem_cons_self _ _), gs.flatten,
            Language.join_mem_kstar fun y hy => hL y (List.mem_cons_of_mem _ hy), ?_⟩
          rw [hcs]
          rfl
      · simp at h

theorem two_dots_cons (c : Byte) (cs : Bytes) :
    (∃ a b, c :: cs = a ++ 46 :: 46 :: b) ↔
      (c = 46 ∧ cs.head? = some 46) ∨ ∃ a b, cs = a ++ 46 :: 46 :: b := by
  constructor
  · rintro ⟨a, b, h⟩
    cases a with
    | nil =>
      simp only [List.nil_append, List.cons.injEq] at h
      obtain ⟨rfl, rfl⟩ := h
      exact Or.inl ⟨rfl, rfl⟩
    | cons x a1 =>
      simp only [List.cons_append, List.cons.injEq] at h
      exact Or.inr ⟨a1, b, h.2⟩
  · rintro (⟨rfl, h⟩ | ⟨a, b, rfl⟩)
    · cases cs with
      | nil => simp at h
      | cons x xs =>
        simp only [List.head?_cons, Option.some.injEq] at h
        subst h
        exact ⟨[], xs, rfl⟩
    · exact ⟨c :: a, b, rfl⟩

theorem getLast?_cons_eq (c : Byte) (cs : Bytes) :
    (c :: cs).getLast? = if cs = [] then some c else cs.getLast? := by
  cases cs with
  | nil => rfl
  | cons d ds => simp [List.getLast?_cons_cons]

theorem scan_true_iff (s : Bytes) :
    scanDotWord true s = true ↔
      (∀ c ∈ s, wordChar c = true ∨ c = 46) ∧ s.getLast? ≠ some 46 ∧
        ¬ ∃ a b, s = a ++ 46 :: 46 :: b := by
  induction s with
  | nil => simp [scanDotWord]
  | cons c cs ih =>
    have ih2 : scanDotWord false cs = true ↔ cs ≠ [] ∧ cs.head? ≠ some 46 ∧
        scanDotWord true cs = true := by
      cases cs with
      | nil => simp [scanDotWord]
      | cons d ds =>
        simp only [scanDotWord]
        by_cases hd : wordChar d = true
        · have hd46 : d ≠ 46 := by
            rintro rfl
            rw [wordChar_dot] at hd
            cases hd
          simp [hd, hd46]
        · simp only [hd, Bool.false_eq_true, if_false, Bool.and_false, Bool.false_and, ne_eq,
            reduceCtorEq, not_false_eq_true, List.head?_cons, Option.some.injEq, true_and,
            false_iff, not_and]
          intro h1 h2
          simp only [Bool.and_eq_true, beq_iff_eq] at h2
          exact h1 h2.1.1
    rw [two_dots_cons, getLast?_cons_eq]
    simp only [scanDotWord]
    by_cases hc : wordChar c = true
    · have hc46 : c ≠ 46 := by
        rintro rfl
        rw [wordChar_dot] at hc
        cases hc
      simp only [hc, if_true, ih, List.mem_cons, forall_eq_or_imp, true_or, true_and, hc46,
        false_and, false_or]
      by_cases hcs : cs = []
      · subst hcs
        simp [hc46]
      · simp [hcs]
    · by_cases hc46 : c = 46
      · subst hc46
        simp only [wordChar_dot, Bool.false_eq_true, if_false, beq_self_eq_true, Bool.and_true,
          Bool.true_and, ih2, ih, List.mem_cons, forall_eq_or_imp, or_true, true_and]
        by_cases hcs : cs = []
        · subst hcs
          simp
        · simp only [hcs, not_false_eq_true, true_and, if_false, not_or, ne_eq]
          tauto
      · simp [hc, hc46]

theorem scan_false_iff (s : Bytes) : scanDotWord false s = true ↔ DotWord s := by
  cases s with
  | nil => simp [scanDotWord, DotWord]
  | cons c cs =>
    simp only [scanDotWord, DotWord]
    by_cases hc : wordChar c = true
    · have hc46 : c ≠ 46 := by
        rintro rfl
        rw [wordChar_dot] at hc
        cases hc
      have h := scan_true_iff (c :: cs)
      simp only [scanDotWord, hc, if_true] at h
      simp only [hc, if_true, h, ne_eq, reduceCtorEq, not_false_eq_true, List.head?_cons,
        Option.some.injEq, hc46, true_and]
    · simp only [hc, Bool.false_eq_true, if_false, Bool.and_false, Bool.false_and, ne_eq,
        reduceCtorEq, not_false_eq_true, List.mem_cons, forall_eq_or_imp, List.head?_cons,
        Option.some.injEq, true_and, false_iff, not_and, false_or]
      intro h1 h2
      exact absurd h1.1 h2

theorem mem_pattern (e : Bytes) :
    e ∈ pattern.matches' ↔
      ∃ L D, e = L ++ 64 :: D ∧ DotWord L ∧ DotWord D ∧ 2 ≤ D.length := by
  have hpat : pattern.matches' =
      (oneOrMore word).matches' * KStar.kstar dotWordGroup.matches' * {[64]} *
        ((oneOrMore word).matches' *
          (dotWordGroup.matches' * KStar.kstar dotWordGroup.matches')) := by
    simp only [pattern, RegularExpression.matches'_mul, RegularExpression.matches'_star,
      RegularExpression.matches'_char]
    rfl
  rw [hpat]
  constructor
  · intro h
    obtain ⟨x, hx, D, hD, rfl⟩ := Language.mem_mul.mp h
    obtain ⟨L, hL, a, ha, rfl⟩ := Language.mem_mul.mp hx
    have ha2 : a = [64] := ha
    subst ha2
    obtain ⟨hD1, hD2⟩ := (mem_domain D).mp hD
    exact ⟨L, D, by simp, (scan_false_iff L).mp ((mem_local L).mp hL),
      (scan_false_iff D).mp hD1, hD2⟩
  · rintro ⟨L, D, rfl, hL, hD, hlen⟩
    refine Language.mem_mul.mpr ⟨L ++ [64], Language.mem_mul.mpr ⟨L,
      (mem_local L).mpr ((scan_false_iff L).mpr hL), [64], rfl, rfl⟩, D,
      (mem_domain D).mpr ⟨(scan_false_iff D).mpr hD, hlen⟩, by simp⟩

/-- C19: `isValidEmail e` holds exactly when `e` is `L ++ "@" ++ D` where `L` and `D` are
made of word characters and dots, are not empty, have no dot at either end and no two
dots in a row, and `D` has at least two characters.  So an accepted address has exactly
one `@` (64) and holds nothing but word characters, dots and the `@`. -/
theorem isValidEmail_iff (e : Bytes) :
    (isValidEmail e = true ↔
      ∃ L D, e = L ++ 64 :: D ∧ DotWord L ∧ DotWord D ∧ 2 ≤ D.length) ∧
    (isValidEmail e = true →
      e.count 64 = 1 ∧ ∀ c ∈ e, wordChar c = true ∨ c = 46 ∨ c = 64) := by
  have hiff : isValidEmail e = true ↔
      ∃ L D, e = L ++ 64 :: D ∧ DotWord L ∧ DotWord D ∧ 2 ≤ D.length := by
    rw [isValidEmail, RegularExpression.rmatch_iff_matches']
    exact mem_pattern e
  refine ⟨hiff, ?_⟩
  intro h
  obtain ⟨L, D, rfl, hL, hD, -⟩ := hiff.mp h
  have hno : ∀ s : Bytes, DotWord s → (64 : Byte) ∉ s := by
    intro s hs hmem
    rcases hs.2.1 64 hmem with h1 | h1
    · rw [wordChar_at] at h1
      cases h1
    · exact absurd h1 (by decide)
  constructor
  · rw [List.count_append, List.count_cons_self, List.count_eq_zero.mpr (hno L hL),
      List.count_eq_zero.mpr (hno D hD)]
  · intro c hc
    simp only [List.mem_append, List.mem_cons] at hc
    rcases hc with hc | rfl | hc
    · rcases hL.2.1 c hc with h1 | h1
      · exact Or.inl h1
      · exact Or.inr (Or.inl h1)
    · exact Or.inr (Or.inr rfl)
    · rcases hD.2.1 c hc with h1 | h1
      · exact Or.inl h1
      · exact Or.inr (Or.inl h1)

/-! ## Lemmas on countWords -/

theorem isspace_eq (c : Byte) : isspace c = decide (c ∈ whitespace) := by
  revert c
  decide

theorem wordStarts_skipSpaces (s : Bytes) :
    wordStarts true (skipSpaces s) = wordStarts true s := by
  induction s with
  | nil => rfl
  | cons c cs ih =>
    by_cases hc : c ∈ whitespace
    · simp [skipSpaces, wordStarts, isspace_eq, hc, ih]
    · simp [skipSpaces, isspace_eq, hc]

theorem length_skipSpaces (s : Bytes) : (skipSpaces s).length ≤ s.length := by
  induction s with
  | nil => simp [skipSpaces]
  | cons c cs ih =>
    simp only [skipSpaces]
    split
    · simp only [List.length_cons]
      omega
    · simp

theorem skipSpaces_head (s cs : Bytes) (c : Byte) (h : skipSpaces s = c :: cs) :
    c ∉ whitespace := by
  induction s with
  | nil => simp [skipSpaces] at h
  | cons d ds ih =>
    simp only [skipSpaces] at h
    split at h
    · exact ih h
    · rename_i hd
      simp only [List.cons.injEq] at h
      rw [← h.1]
      simpa [isspace_eq] using hd

theorem wordStarts_readWord (s : Bytes) :
    wordStarts true (readWord s).2 = wordStarts false s := by
  induction s with
  | nil => rfl
  | cons c cs ih =>
    by_cases hc : c ∈ whitespace
    · simp [readWord, wordStarts, isspace_eq, hc]
    · simp [readWord, wordStarts, isspace_eq, hc, ih]

theorem length_readWord (s : Bytes) : (readWord s).2.length ≤ s.length := by
  induction s with
  | nil => simp [readWord]
  | cons c cs ih =>
    simp only [readWord]
    split
    · simp
    · simp only [List.length_cons]
      omega

theorem extractWord_none (s : Bytes) (h : extractWord s = none) : maximalRuns s = 0 := by
  simp only [extractWord] at h
  split at h
  · rename_i hs
    rw [maximalRuns, ← wordStarts_skipSpaces, hs]
    rfl
  · cases h

theorem extractWord_some (s word rest : Bytes) (h : extractWord s = some (word, rest)) :
    maximalRuns s = 1 + maximalRuns rest ∧ rest.length < s.length := by
  simp only [extractWord] at h
  split at h
  · cases h
  · rename_i c cs hs
    have hc : c ∉ whitespace := skipSpaces_head s cs c hs
    have hlen := length_skipSpaces s
    rw [hs] at hlen
    simp only [Option.some.injEq] at h
    have hrest : rest = (readWord (c :: cs)).2 := by rw [h]
    have hr2 : (readWord (c :: cs)).2 = (readWord cs).2 := by
      simp [readWord, isspace_eq, hc]
    have hl2 := length_readWord cs
    simp only [List.length_cons] at hlen
    constructor
    · rw [maximalRuns, ← wordStarts_skipSpaces, hs, hrest, hr2, maximalRuns,
        wordStarts_readWord]
      simp [wordStarts, hc]
    · rw [hrest, hr2]
      omega

theorem wrapInt_of_lt (n : Nat) (h : n < 2 ^ 31) : wrapInt n = n := by
  simp only [wrapInt]
  omega

theorem wrapInt_wrapInt_add (x : Int) (k : Nat) : wrapInt (wrapInt x + k) = wrapInt (x + k) := by
  simp only [wrapInt]
  omega

theorem wrapInt_range (x : Int) : -2 ^ 31 ≤ wrapInt x ∧ wrapInt x < 2 ^ 31 := by
  simp only [wrapInt]
  omega

theorem countLoop_eq_wrap (fuel : Nat) (s : Bytes) (count : Int) (h : s.length < fuel)
    (hc : wrapInt count = count) :
    countLoop fuel s count = some (wrapInt (count + maximalRuns s)) := by
  induction fuel generalizing s count with
  | zero => omega
  | succ n ih =>
    simp only [countLoop]
    cases he : extractWord s with
    | none => simp [extractWord_none s he, hc]
    | some wr =>
      obtain ⟨w, r⟩ := wr
      obtain ⟨h1, h2⟩ := extractWord_some s w r he
      simp only
      have hw : wrapInt (wrapInt (count + 1)) = wrapInt (count + 1) := by
        simp only [wrapInt]
        omega
      rw [ih r _ (by omega) hw, h1, wrapInt_wrapInt_add]
      congr 2
      push_cast
      omega

theorem wordStarts_eq_zero (s : Bytes) :
    wordStarts true s = 0 ↔ ∀ c ∈ s, c ∈ whitespace := by
  induction s with
  | nil => simp [wordStarts]
  | cons c cs ih =>
    by_cases hc : c ∈ whitespace
    · simp [wordStarts, hc, ih]
    · simp [wordStarts, hc]

theorem trim_eq_nil_iff (s : Bytes) : trim s = [] ↔ ∀ c ∈ s, c ∈ whitespace := by
  constructor
  · intro h
    obtain ⟨l, t, r, hs, hl, hr, ht⟩ := exists_decomposition s
    have htrim : trim s = t := by rw [hs]; exact trim_decomposed l t r hl hr ht
    rw [h] at htrim
    subst htrim
    intro c hc
    rw [hs] at hc
    simp only [List.append_nil, List.mem_append] at hc
    exact hc.elim (hl c) (hr c)
  · exact trim_of_all s

theorem countWords_eq_wrap (s : Bytes) : countWords s = some (wrapInt (maximalRuns s)) := by
  simp only [countWords]
  split
  · rename_i h
    rw [maximalRuns, (wordStarts_eq_zero s).mpr ((trim_eq_nil_iff s).mp h)]
    rfl
  · rw [countLoop_eq_wrap _ s 0 (by omega) rfl]
    simp

theorem countWords_eq_runs (s : Bytes) (h : maximalRuns s < 2 ^ 31) :
    countWords s = some (maximalRuns s : Int) := by
  rw [countWords_eq_wrap, wrapInt_of_lt _ h]

theorem wordStarts_append_space (a b : Bytes) (afterSpace : Bool) :
    wordStarts afterSpace (a ++ 32 :: b) = wordStarts afterSpace a + wordStarts true b := by
  induction a generalizing afterSpace with
  | nil =>
    have h32 : (32 : Byte) ∈ whitespace := by decide
    simp [wordStarts, h32]
  | cons c cs ih =>
    simp only [List.cons_append, wordStarts, List.append_eq, ih]
    omega

theorem two_mul_wordStarts_le (s : Bytes) (afterSpace : Bool) :
    2 * wordStarts afterSpace s ≤ s.length + if afterSpace then 1 else 0 := by
  induction s generalizing afterSpace with
  | nil => simp [wordStarts]
  | cons c cs ih =>
    have h := ih (decide (c ∈ whitespace))
    by_cases hc : c ∈ whitespace
    · simp only [hc, decide_True, if_true] at h
      simp only [wordStarts, hc, decide_True, Bool.not_true, Bool.and_false, Bool.false_eq_true,
        if_false, List.length_cons]
      split <;> omega
    · simp only [hc, decide_False, Bool.false_eq_true, if_false] at h
      simp only [wordStarts, hc, decide_False, Bool.not_false, Bool.and_true, List.length_cons]
      cases afterSpace <;> simp <;> omega

theorem wordStarts_false_word (w r : Bytes) (hw : ∀ c ∈ w, c ∉ whitespace)
    (hr : r = [] ∨ ∃ x, r.head? = some x ∧ x ∈ whitespace) :
    wordStarts false (w ++ r) = wordStarts true r := by
  induction w with
  | nil =>
    rcases hr with rfl | ⟨x, hx, hxw⟩
    · rfl
    · cases r with
      | nil => simp at hx
      | cons y ys =>
        simp only [List.head?_cons, Option.some.injEq] at hx
        subst hx
        simp [wordStarts, hxw]
  | cons c cs ih =>
    have hc : c ∉ whitespace := hw c (List.mem_cons_self _ _)
    simp only [List.cons_append, wordStarts, hc, decide_False, Bool.false_and,
      Bool.false_eq_true, if_false, Nat.zero_add]
    exact ih (fun x hx => hw x (List.mem_cons_of_mem _ hx))

theorem maximalRuns_run (l w r : Bytes) (hl : ∀ c ∈ l, c ∈ whitespace) (hne : w ≠ [])
    (hw : ∀ c ∈ w, c ∉ whitespace) (hr : r = [] ∨ ∃ x, r.head? = some x ∧ x ∈ whitespace) :
    maximalRuns (l ++ w ++ r) = 1 + maximalRuns r := by
  have hskip : ∀ x : Bytes, wordStarts true (l ++ x) = wordStarts true x := by
    intro x
    induction l with
    | nil => rfl
    | cons c cs ih =>
      have hc : c ∈ whitespace := hl c (List.mem_cons_self _ _)
      simp only [List.cons_append, wordStarts, hc, decide_True, Bool.not_true, Bool.and_false,
        Bool.false_eq_true, if_false, Nat.zero_add]
      exact ih (fun x hx => hl x (List.mem_cons_of_mem _ hx))
  cases w with
  | nil => exact absurd rfl hne
  | cons c cs =>
    have hc : c ∉ whitespace := hw c (List.mem_cons_self _ _)
    rw [maximalRuns, List.append_assoc, hskip]
    simp only [List.cons_append, wordStarts, hc, decide_False, Bool.not_false, Bool.and_self,
      if_true, List.append_eq]
    rw [wordStarts_false_word cs r (fun x hx => hw x (List.mem_cons_of_mem _ hx)) hr]
    rfl

theorem length_manyWords (n : Nat) : (manyWords n).length = 2 * n + 1 := by
  induction n with
  | zero => rfl
  | succ n ih =>
    simp only [manyWords, List.length_cons, ih]
    omega

theorem maximalRuns_manyWords (n : Nat) : maximalRuns (manyWords n) = n + 1 := by
  induction n with
  | zero => rfl
  | succ n ih =>
    have h := wordStarts_append_space [97] (manyWords n) true
    simp only [List.singleton_append] at h
    have h1 : wordStarts true [97] = 1 := rfl
    rw [maximalRuns] at ih
    rw [maximalRuns, manyWords, h, ih, h1]
    omega

/-- C21, for a string of fewer than `2 ^ 31` words, so that the `int` counter holds the
count: `countWords s` is the number of maximal runs of non-whitespace characters of `s`
(one more for a run of such characters between whitespace or the ends of the string, none
for a string of whitespace); it is 0 exactly when `s` is empty or all whitespace; the
`trim` guard does not change what the loop gives; and
`countWords (a ++ " " ++ b) = countWords a + countWords b` when `a ++ " " ++ b` has fewer
than `2 ^ 31` words.  Every string of fewer than `2 ^ 32 - 1` characters has fewer than
`2 ^ 31` words; and on every string `countWords` gives the number of runs as the `int`
holds it. -/
theorem countWords_runs (s a b : Bytes) (hs : maximalRuns s < 2 ^ 31)
    (hab : maximalRuns (a ++ [32] ++ b) < 2 ^ 31) :
    countWords s = some (maximalRuns s : Int) ∧
    ((∀ t : Bytes, (∀ c ∈ t, c ∈ whitespace) → maximalRuns t = 0) ∧
      ∀ l w r : Bytes, (∀ c ∈ l, c ∈ whitespace) → w ≠ [] → (∀ c ∈ w, c ∉ whitespace) →
        (r = [] ∨ ∃ x, r.head? = some x ∧ x ∈ whitespace) →
        maximalRuns (l ++ w ++ r) = 1 + maximalRuns r) ∧
    (countWords s = some 0 ↔ s = [] ∨ ∀ c ∈ s, c ∈ whitespace) ∧
    countWords s = countLoop (s.length + 1) s 0 ∧
    (∃ m n : Int, countWords a = some m ∧ countWords b = some n ∧
      countWords (a ++ [32] ++ b) = some (m + n)) ∧
    (∀ t : Bytes, t.length < 2 ^ 32 - 1 → maximalRuns t < 2 ^ 31) ∧
    ∀ t : Bytes, countWords t = some (wrapInt (maximalRuns t)) := by
  have hsum : maximalRuns (a ++ [32] ++ b) = maximalRuns a + maximalRuns b := by
    rw [maximalRuns, List.append_assoc, List.singleton_append, wordStarts_append_space]
    rfl
  refine ⟨countWords_eq_runs s hs,
    ⟨fun t ht => (wordStarts_eq_zero t).mpr ht, maximalRuns_run⟩, ?_, ?_, ?_, ?_,
    countWords_eq_wrap⟩
  · rw [countWords_eq_runs s hs, Option.some.injEq, maximalRuns]
    have hz := wordStarts_eq_zero s
    constructor
    · intro h
      exact Or.inr (hz.mp (by exact_mod_cast h))
    · rintro (rfl | h)
      · rfl
      · rw [hz.mpr h]
        rfl
  · rw [countWords_eq_wrap, countLoop_eq_wrap _ s 0 (by omega) rfl]
    simp
  · refine ⟨maximalRuns a, maximalRuns b, countWords_eq_runs a (by omega),
      countWords_eq_runs b (by omega), ?_⟩
    rw [countWords_eq_runs _ hab, hsum]
    simp
  · intro t ht
    have h2 := two_mul_wordStarts_le t true
    simp only [if_true] at h2
    rw [maximalRuns]
    omega

theorem countWords_runs_witness :
    maximalRuns (ascii "  hello   world \n") < 2 ^ 31 ∧
    maximalRuns (ascii "one two" ++ [32] ++ ascii "three") < 2 ^ 31 ∧
    countWords (ascii "  hello   world \n") = some 2 ∧
    countWords (ascii "one two" ++ [32] ++ ascii "three") = some 3 ∧
    (countWords (ascii "  hello   world \n") =
        some (maximalRuns (ascii "  hello   world \n") : Int) ∧
      ((∀ t : Bytes, (∀ c ∈ t, c ∈ whitespace) → maximalRuns t = 0) ∧
        ∀ l w r : Bytes, (∀ c ∈ l, c ∈ whitespace) → w ≠ [] → (∀ c ∈ w, c ∉ whitespace) →
          (r = [] ∨ ∃ x, r.head? = some x ∧ x ∈ whitespace) →
          maximalRuns (l ++ w ++ r) = 1 + maximalRuns r) ∧
      (countWords (ascii "  hello   world \n") = some 0 ↔
        ascii "  hello   world \n" = [] ∨ ∀ c ∈ ascii "  hello   world \n", c ∈ whitespace) ∧
      countWords (ascii "  hello   world \n") =
        countLoop ((ascii "  hello   world \n").length + 1) (ascii "  hello   world \n") 0 ∧
      (∃ m n : Int, countWords (ascii "one two") = some m ∧ countWords (ascii "three") = some n ∧
        countWords (ascii "one two" ++ [32] ++ ascii "three") = some (m + n)) ∧
      (∀ t : Bytes, t.length < 2 ^ 32 - 1 → maximalRuns t < 2 ^ 31) ∧
      ∀ t : Bytes, countWords t = some (wrapInt (maximalRuns t))) :=
  ⟨by decide, by decide, by decide, by decide,
    countWords_runs (ascii "  hello   world \n") (ascii "one two") (ascii "three")
      (by decide) (by decide)⟩

/-- C21 fails as stated at the string `a a ... a` of `2 ^ 31` words (`2 ^ 32 - 1`
characters): it has `2 ^ 31` maximal runs of non-whitespace characters, which no `int`
holds, and `countWords` returns `-2 ^ 31`. -/
theorem countWords_runs_counterexample :
    (manyWords 2147483647).length = 4294967295 ∧
    maximalRuns (manyWords 2147483647) = 2147483648 ∧
    countWords (manyWords 2147483647) = some (-2147483648) ∧
    countWords (manyWords 2147483647) ≠ some (maximalRuns (manyWords 2147483647) : Int) := by
  have hruns : maximalRuns (manyWords 2147483647) = 2147483648 :=
    maximalRuns_manyWords 2147483647
  have hcount : countWords (manyWords 2147483647) = some (-2147483648) := by
    rw [countWords_eq_wrap, hruns]
    rfl
  refine ⟨length_manyWords 2147483647, hruns, hcount, ?_⟩
  rw [hcount, hruns]
  intro h
  cases h

/-! ## Lemmas on isPalindrome -/

theorem isalnum_tolower (c : Byte) : isalnum (tolower c) = isalnum c := by
  revert c
  decide

theorem tolower_tolower (c : Byte) : tolower (tolower c) = tolower c := by
  revert c
  decide

theorem tolower_toupper (c : Byte) : tolower (toupper c) = tolower c := by
  revert c
  decide

theorem isalnum_whitespace (c : Byte) (h : c ∈ whitespace) : isalnum c = false := by
  revert c
  decide

theorem cleaned_eq (x : Bytes) :
    eraseIf (fun c => !isalnum c) (toLowerCase x) = alnumLower x := by
  simp only [eraseIf, toLowerCase, alnumLower, Bool.not_not]
  induction x with
  | nil => rfl
  | cons c cs ih =>
    simp only [List.map_cons, List.filter_cons, isalnum_tolower]
    split
    · simp [ih]
    · exact ih

theorem filter_isalnum_of_whitespace (l : Bytes) (h : ∀ c ∈ l, c ∈ whitespace) :
    l.filter isalnum = [] := by
  rw [List.filter_eq_nil_iff]
  intro c hc
  simp [isalnum_whitespace c (h c hc)]

theorem alnumLower_trim (s : Bytes) : alnumLower (trim s) = alnumLower s := by
  obtain ⟨l, t, r, hs, hl, hr, ht⟩ := exists_decomposition s
  have htrim : trim s = t := by rw [hs]; exact trim_decomposed l t r hl hr ht
  rw [htrim, hs]
  simp [alnumLower, List.filter_append, filter_isalnum_of_whitespace l hl,
    filter_isalnum_of_whitespace r hr]

theorem isPalindrome_eq (s : Bytes) :
    isPalindrome s = (alnumLower s == (alnumLower s).reverse) := by
  simp only [isPalindrome, reverse, cleaned_eq, alnumLower_trim]

theorem alnumLower_eq_of_lower (s s2 : Bytes) (h : toLowerCase s2 = toLowerCase s) :
    alnumLower s2 = alnumLower s := by
  rw [← cleaned_eq, ← cleaned_eq, h]

theorem alnumLower_reverse (s : Bytes) : alnumLower s.reverse = (alnumLower s).reverse := by
  simp [alnumLower, List.filter_reverse, List.map_reverse]

theorem alnumLower_insert (a b : Bytes) (c : Byte) (h : isalnum c = false) :
    alnumLower (a ++ c :: b) = alnumLower (a ++ b) := by
  simp [alnumLower, List.filter_append, List.filter_cons, h]

/-- C22: `isPalindrome s` holds exactly when the letters and digits of `s`, lower-cased,
read the same in both directions.  So the result does not change when the case of
letters changes, when a character that is not a letter or digit is inserted or deleted,
or when `s` is reversed; the call of `trim` does not change it; and a string without
letters and digits, the empty string included, is a palindrome.  The model leaves bytes
outside ASCII unchanged and not alphanumeric, so this holds for every byte string, the
ASCII strings of the claim in particular. -/
theorem isPalindrome_characterization (s s2 a b : Bytes) (c : Byte) :
    (isPalindrome s = true ↔ alnumLower s = (alnumLower s).reverse) ∧
    ((toLowerCase s2 = toLowerCase s → isPalindrome s2 = isPalindrome s) ∧
      isPalindrome (toUpperCase s) = isPalindrome s ∧
      isPalindrome (toLowerCase s) = isPalindrome s) ∧
    (isalnum c = false → isPalindrome (a ++ c :: b) = isPalindrome (a ++ b)) ∧
    isPalindrome (reverse s) = isPalindrome s ∧
    isPalindrome s =
      (eraseIf (fun c => !isalnum c) (toLowerCase s) ==
        reverse (eraseIf (fun c => !isalnum c) (toLowerCase s))) ∧
    ((∀ x ∈ s, isalnum x = false) → isPalindrome s = true) ∧
    isPalindrome [] = true := by
  have hcase : ∀ t : Bytes, toLowerCase t = toLowerCase s → isPalindrome t = isPalindrome s := by
    intro t ht
    rw [isPalindrome_eq, isPalindrome_eq, alnumLower_eq_of_lower s t ht]
  refine ⟨?_, ⟨hcase s2, hcase _ ?_, hcase _ ?_⟩, ?_, ?_, ?_, ?_, by decide⟩
  · rw [isPalindrome_eq]
    simp
  · simp [toLowerCase, toUpperCase, tolower_toupper]
  · simp [toLowerCase, tolower_tolower]
  · intro h
    rw [isPalindrome_eq, isPalindrome_eq, alnumLower_insert a b c h]
  · rw [isPalindrome_eq, isPalindrome_eq, reverse, alnumLower_reverse, List.reverse_reverse]
    exact Bool.beq_comm
  · rw [isPalindrome_eq, cleaned_eq, reverse]
  · intro h
    have hnil : alnumLower s = [] := by
      simp only [alnumLower, List.map_eq_nil_iff, List.filter_eq_nil_iff]
      intro x hx
      simp [h x hx]
    rw [isPalindrome_eq, hnil]
    rfl

/-! ## isValidEmail without a dot in the domain -/

theorem isValidEmail_true_iff (e : Bytes) :
    isValidEmail e = true ↔
      ∃ L D, e = L ++ 64 :: D ∧ DotWord L ∧ DotWord D ∧ 2 ≤ D.length := by
  rw [isValidEmail, RegularExpression.rmatch_iff_matches']
  exact mem_pattern e

theorem dotWord_of_words (u : Bytes) (hu : u ≠ []) (huw : ∀ x ∈ u, wordChar x = true) :
    DotWord u := by
  have h := scan_words u [] false ((mem_words u).mpr ⟨hu, huw⟩)
  rw [List.append_nil] at h
  exact (scan_false_iff u).mp (by rw [h]; rfl)

theorem at_not_mem_dotWord (s : Bytes) (hs : DotWord s) : (64 : Byte) ∉ s := by
  intro hmem
  rcases hs.2.1 64 hmem with h1 | h1
  · rw [wordChar_at] at h1
    cases h1
  · exact absurd h1 (by decide)

theorem isValidEmail_words (u v : Bytes) (hu : u ≠ []) (huw : ∀ x ∈ u, wordChar x = true)
    (hvw : ∀ x ∈ v, wordChar x = true) (hv : 2 ≤ v.length) :
    isValidEmail (u ++ [64] ++ v) = true := by
  have hvne : v ≠ [] := by
    rintro rfl
    simp at hv
  exact (isValidEmail_true_iff _).mpr
    ⟨u, v, by simp, dotWord_of_words u hu huw, dotWord_of_words v hvne hvw, hv⟩

theorem isValidEmail_single (u : Bytes) (c : Byte) :
    isValidEmail (u ++ [64] ++ [c]) = false := by
  rw [Bool.eq_false_iff]
  intro h
  obtain ⟨L, D, he, -, hD, hlen⟩ := (isValidEmail_true_iff _).mp h
  have hno := at_not_mem_dotWord D hD
  have hrev := congrArg List.reverse he
  simp only [List.reverse_append, List.reverse_cons, List.reverse_nil, List.nil_append,
    List.singleton_append, List.append_assoc, List.cons_append] at hrev
  obtain ⟨d1, d2, ds, hds⟩ : ∃ d1 d2 ds, D.reverse = d1 :: d2 :: ds := by
    have hl : 2 ≤ D.reverse.length := by simpa using hlen
    cases hD2 : D.reverse with
    | nil => rw [hD2] at hl; simp at hl
    | cons d1 t =>
      cases t with
      | nil => rw [hD2] at hl; simp at hl
      | cons d2 ds => exact ⟨d1, d2, ds, rfl⟩
  rw [hds] at hrev
  simp only [List.cons_append, List.cons.injEq] at hrev
  have h64 : (64 : Byte) ∈ D.reverse := by
    rw [hds, ← hrev.2.1]
    simp
  exact hno (List.mem_reverse.mp h64)

/-- C23: `isValidEmail` asks for no dot in the domain: for a non-empty string `u` of word
characters and a string `v` of at least two word characters, `u ++ "@" ++ v` is accepted,
as are "user@localhost" and "a@bc"; with a single character `c` after the `@` (64), a
word character or not, as in "a@b", the address is rejected. -/
theorem isValidEmail_without_dot (u v : Bytes) (c : Byte) (hu : u ≠ [])
    (huw : ∀ x ∈ u, wordChar x = true) (hvw : ∀ x ∈ v, wordChar x = true)
    (hv : 2 ≤ v.length) :
    isValidEmail (u ++ [64] ++ v) = true ∧
    isValidEmail (u ++ [64] ++ [c]) = false ∧
    isValidEmail (ascii "user@localhost") = true ∧
    isValidEmail (ascii "a@bc") = true ∧
    isValidEmail (ascii "a@b") = false := by
  refine ⟨isValidEmail_words u v hu huw hvw hv, isValidEmail_single u c, ?_, ?_, ?_⟩
  · exact isValidEmail_words (ascii "user") (ascii "localhost") (by decide) (by decide)
      (by decide) (by decide)
  · exact isValidEmail_words (ascii "a") (ascii "bc") (by decide) (by decide) (by decide)
      (by decide)
  · exact isValidEmail_single (ascii "a") 98

theorem isValidEmail_without_dot_witness :
    ascii "user" ≠ [] ∧ (∀ x ∈ ascii "user", wordChar x = true) ∧
    (∀ x ∈ ascii "localhost", wordChar x = true) ∧ 2 ≤ (ascii "localhost").length ∧
    isValidEmail (ascii "user" ++ [64] ++ ascii "localhost") = true ∧
    isValidEmail (ascii "user" ++ [64] ++ [98]) = false ∧
    isValidEmail (ascii "user@localhost") = true ∧
    isValidEmail (ascii "a@bc") = true ∧
    isValidEmail (ascii "a@b") = false :=
  ⟨by decide, by decide, by decide, by decide,
    isValidEmail_without_dot (ascii "user") (ascii "localhost") 98 (by decide) (by decide)
      (by decide) (by decide)⟩

end StringUtils
